import Mathlib

/-!
Verification of the concurrent crawl orchestration core of the Crawler
repository (src/main.go) against its specification.  The Go program is
shallowly embedded: the mutex-guarded admission section of
discoverURLs.crawl becomes an atomic operation on a Frontier state, the
concurrent discovery goroutines become an interleaving small-step
machine driven by an explicit schedule, the worker loop becomes a fold
over the outcomes of the items it pops, and extractLinks becomes a
structural recursion over the token stream.  Machine integers do not
occur (all counters are small Go ints used as counts), so Nat is used
throughout.
-/

namespace Crawler

/-! ## Frontier: the mutex-guarded admission section -/

/-- Shared discovery state guarded by the mutex of discoverURLs
(main.go lines 234-236): the visited map, read as the set of URLs ever
admitted, and the admission counter. -/
structure Frontier where
  visited : List String
  count : Nat
  deriving DecidableEq

/-- The mutex-guarded section of discoverURLs.crawl (main.go lines
240-248): atomically, if the URL is already visited or the counter has
reached maxURLs, return false with no side effect; otherwise mark the
URL visited, increment the counter and return true.  The mutex makes
the duplicate check, the cap comparison and the increment one atomic
unit, so every concurrent execution of these sections is equivalent to
some serialization; a serialized call sequence is modelled as a list. -/
def admitURL (maxURLs : Nat) (url : String) (f : Frontier) : Bool × Frontier :=
  if url ∈ f.visited ∨ maxURLs ≤ f.count then (false, f)
  else (true, ⟨url :: f.visited, f.count + 1⟩)

/-- A serialized sequence of admission attempts: each attempt's URL
paired with its result, together with the final frontier state. -/
def runAdmits (maxURLs : Nat) : List String → Frontier → List (String × Bool) × Frontier
  | [], f => ([], f)
  | u :: us, f =>
    let r := admitURL maxURLs u f
    let rest := runAdmits maxURLs us r.2
    ((u, r.1) :: rest.1, rest.2)

/-- Number of attempts on URL u that returned true. -/
def truesFor (u : String) (rs : List (String × Bool)) : Nat :=
  rs.countP (fun r => r.1 == u && r.2)

/-- Number of attempts that returned true, over all URLs. -/
def truesTotal (rs : List (String × Bool)) : Nat :=
  rs.countP (fun r => r.2)

/-- The empty frontier at the start of one crawl run. -/
def frontier0 : Frontier := ⟨[], 0⟩

/-! ## Statistics and the worker loop -/

/-- The three global counters completedPages, successPages, failedPages
(main.go lines 117-122). -/
structure Stats where
  completed : Nat
  succeeded : Nat
  failed : Nat
  deriving DecidableEq

/-- The four possible control paths of scrapeURLFromWorklist for one
popped Work Item: the request fails, GetSEOData fails, savePage fails,
or everything succeeds. -/
inductive ScrapeOutcome
  | fetchFailed
  | parseFailed
  | dbFailed
  | ok
  deriving DecidableEq

/-- Counter updates and returned-error flag of scrapeURLFromWorklist
(main.go lines 307-332): each of the three failure paths adds one to
failedPages and returns an error (the Bool); the success path adds one
to successPages and to completedPages and returns nil. -/
def scrapeURLFromWorklist (o : ScrapeOutcome) (st : Stats) : Stats × Bool :=
  match o with
  | .fetchFailed => (⟨st.completed, st.succeeded, st.failed + 1⟩, true)
  | .parseFailed => (⟨st.completed, st.succeeded, st.failed + 1⟩, true)
  | .dbFailed => (⟨st.completed, st.succeeded, st.failed + 1⟩, true)
  | .ok => (⟨st.completed + 1, st.succeeded + 1, st.failed⟩, false)

/-- The worker loop (main.go lines 334-341): scrape each popped item in
order; a returned error is only logged, and the loop continues with the
next item.  The list holds the outcomes of the items popped, in pop
order; counter updates are atomic, so the interleaved updates of
several workers are some serialization covered by the same list. -/
def workerRun (os : List ScrapeOutcome) (st : Stats) : Stats :=
  os.foldl (fun s o => (scrapeURLFromWorklist o s).1) st

/-- The CrawlStats fields as filled in by main (main.go lines 385-387):
TotalPages from completedPages, SuccessPages from successPages,
FailedPages from failedPages. -/
def recordedCrawlStats (st : Stats) : Nat × Nat × Nat :=
  (st.completed, st.succeeded, st.failed)

/-! ## extractLinks -/

/-- A token of the stream html.NewTokenizer yields from the body,
up to and excluding the terminating ErrorToken: a start tag with its
name and attribute key-value pairs, or any other token. -/
inductive Token
  | startTag (name : String) (attrs : List (String × String))
  | other
  deriving DecidableEq

/-- The net/url collaborator as extractLinks consumes it.  parse models
url.Parse: none models the (nil, err) return for a string the library
rejects (for example a URL with a space in its host).  resolve models
reference resolution, (*URL).Parse called on a non-nil receiver: the
resolved absolute URL, or none on an error. -/
structure URLLib where
  parse : String → Option String
  resolve : String → String → Option String

/-- Result of one extractLinks call: the collected link list, or the
run-time panic that dereferencing a nil base *URL raises. -/
inductive ExtractResult
  | links (ls : List String)
  | nilDeref
  deriving DecidableEq

/-- The inner attribute loop of extractLinks (main.go lines 290-297)
for one anchor tag: for each attribute with key href, call base.Parse
on its value.  If the base is the nil pointer that url.Parse returned
alongside its discarded error (line 279), the call dereferences nil;
otherwise a resolution error just skips the link and a resolved link is
appended. -/
def hrefFold (lib : URLLib) (obase : Option String) :
    List (String × String) → List String → Option (List String)
  | [], acc => some acc
  | a :: rest, acc =>
    if a.1 == "href" then
      match obase with
      | none => none
      | some b =>
        match lib.resolve b a.2 with
        | some l => hrefFold lib obase rest (acc ++ [l])
        | none => hrefFold lib obase rest acc
    else hrefFold lib obase rest acc

/-- The token loop of extractLinks (main.go lines 282-299): stop at the
error token (the end of the list), and on a start tag named a run the
attribute loop. -/
def tokenFold (lib : URLLib) (obase : Option String) :
    List Token → List String → ExtractResult
  | [], acc => ExtractResult.links acc
  | Token.startTag name attrs :: rest, acc =>
    if name == "a" then
      match hrefFold lib obase attrs acc with
      | none => ExtractResult.nilDeref
      | some acc2 => tokenFold lib obase rest acc2
    else tokenFold lib obase rest acc
  | Token.other :: rest, acc => tokenFold lib obase rest acc

/-- extractLinks (main.go lines 277-301): parse the base URL with the
error discarded, then scan the token stream collecting resolved href
targets of anchor start tags. -/
def extractLinks (lib : URLLib) (body : List Token) (baseURL : String) : ExtractResult :=
  tokenFold lib (lib.parse baseURL) body []

/-- A concrete URLLib instance for evaluation: the parser rejects
exactly the one string whose host has a space in it, which the real
url.Parse rejects with an invalid-character error, and accepts
everything else unchanged; resolution concatenates. -/
def spacedHostLib : URLLib :=
  ⟨fun s => if s == "http://bad host/" then none else some s,
   fun b r => some (b ++ r)⟩

/-! ## The discovery phase as an interleaving machine

discoverURLs (main.go lines 233-275) runs one goroutine per call of
crawl.  Each goroutine passes through a fixed sequence of atomic
regions: the mutex section, the fetch with its status check, the
worklist send, and the link extraction with its spawn loop.  The
machine below interleaves these regions under an explicit schedule; a
branch is one crawl goroutine, identified by the index at which it was
appended to the branch list. -/

/-- Outcome the network gives one discovery fetch of a URL: an error
from makeRequest, or a response carrying a status code and the link
list that extractLinks yields from its body. -/
inductive FetchOutcome
  | netErr
  | resp (status : Nat) (links : List String)
  deriving DecidableEq

/-- Configuration of one crawl run: seed URL, the admission cap, and
the site being crawled (what each URL's fetch returns; each URL is
fetched at most once during discovery, so one outcome per URL loses no
behavior). -/
structure Cfg where
  seed : String
  maxURLs : Nat
  site : String → FetchOutcome

/-- Program counter of one crawl goroutine (main.go lines 239-268):
before the mutex section; admitted with the counter value captured into
current at line 247; fetched with status 200 and the body's links,
about to send on the worklist; sent, about to extract links and spawn;
returned. -/
inductive BState
  | ready
  | admitted (cur : Nat)
  | fetched (cur : Nat) (links : List String)
  | sent (cur : Nat) (links : List String)
  | halted
  deriving DecidableEq

/-- One discovery branch: the URL its crawl call received and its
program counter. -/
structure Branch where
  url : String
  st : BState
  deriving DecidableEq

/-- Observable events of the discovery phase, in the order they
happen.  admitT and admitF are the two exits of the mutex section,
fetchEv the makeRequest call, pushEv a completed worklist send,
pushClosed a send on the already-closed worklist (a run-time panic in
Go), spawnEv the go statement creating branch i for child c, doneEv the
send on the done channel, closeEv the close of the worklist. -/
inductive Ev
  | admitT (i : Nat) (u : String)
  | admitF (i : Nat) (u : String)
  | fetchEv (i : Nat) (u : String)
  | pushEv (u : String)
  | pushClosed (u : String)
  | spawnEv (p : String) (i : Nat) (c : String)
  | doneEv
  | closeEv
  deriving DecidableEq

/-- Whole-machine state of the discovery phase together with the parts
of main it synchronizes with.  queue is the list of URLs successfully
sent on the worklist, stats the global counters (which discovery never
touches), trace the event history. -/
structure DState where
  branches : List Branch
  visited : List String
  count : Nat
  queue : List String
  closed : Bool
  doneSig : Bool
  crashed : Bool
  stats : Stats
  trace : List Ev
  deriving DecidableEq

/-- Who moves: one branch goroutine, the goroutine of main.go lines
270-274 that signals done, or main at lines 380-381 closing the
worklist on that signal. -/
inductive Actor
  | br (i : Nat)
  | sig
  | orch
  deriving DecidableEq

/-- Initial state: only the seed branch exists (the synchronous
crawl(seedURL) call of line 271), nothing visited, counters zero. -/
def initState (cfg : Cfg) : DState :=
  ⟨[⟨cfg.seed, BState.ready⟩], [], 0, [], false, false, false, ⟨0, 0, 0⟩, []⟩

/-- The spawn events of the go statements of lines 263-267: one per
extracted link, the children receiving consecutive branch indices
starting at base. -/
def spawnEvs (p : String) (base : Nat) : List String → List Ev
  | [] => []
  | c :: cs => Ev.spawnEv p base c :: spawnEvs p (base + 1) cs

/-- One interleaving step.  Actor br i advances branch i by one atomic
region of crawl: the mutex section (lines 240-248, embedded as
admitURL), the fetch and status check (lines 250-258), the worklist
send (line 260; on a closed channel this panics, crashing the program),
or the extraction and spawn loop (lines 262-267; the children are fresh
branches that have not yet run, so creating them is one step).  Actor
sig is the goroutine of lines 270-274: its synchronous crawl(seedURL)
call is branch 0, and after that call returns it sleeps five seconds
and sends done - the sleep synchronizes with nothing, so the model lets
the send happen at any later point.  Actor orch is main receiving done
and closing the worklist.  The channel's buffer capacity is abstracted
away: a send on an open worklist completes in one step, since a send
delayed on a full buffer is scheduler freedom the interleaving already
covers, and in Go a send blocked at close time panics just as one
started after the close.  An actor that cannot move leaves the state
unchanged, and a crashed program never moves again. -/
def discoverStep (cfg : Cfg) (s : DState) (a : Actor) : DState :=
  if s.crashed = true then s else
  match a with
  | .sig =>
    match s.branches[0]? with
    | some b =>
      if b.st = BState.halted ∧ s.doneSig = false then
        { s with doneSig := true, trace := s.trace ++ [Ev.doneEv] }
      else s
    | none => s
  | .orch =>
    if s.doneSig = true ∧ s.closed = false then
      { s with closed := true, trace := s.trace ++ [Ev.closeEv] }
    else s
  | .br i =>
    match s.branches[i]? with
    | none => s
    | some b =>
      match b.st with
      | .ready =>
        let r := admitURL cfg.maxURLs b.url ⟨s.visited, s.count⟩
        if r.1 then
          { s with branches := s.branches.set i ⟨b.url, BState.admitted r.2.count⟩,
                   visited := r.2.visited, count := r.2.count,
                   trace := s.trace ++ [Ev.admitT i b.url] }
        else
          { s with branches := s.branches.set i ⟨b.url, BState.halted⟩,
                   trace := s.trace ++ [Ev.admitF i b.url] }
      | .admitted cur =>
        match cfg.site b.url with
        | .netErr =>
          { s with branches := s.branches.set i ⟨b.url, BState.halted⟩,
                   trace := s.trace ++ [Ev.fetchEv i b.url] }
        | .resp status links =>
          if status = 200 then
            { s with branches := s.branches.set i ⟨b.url, BState.fetched cur links⟩,
                     trace := s.trace ++ [Ev.fetchEv i b.url] }
          else
            { s with branches := s.branches.set i ⟨b.url, BState.halted⟩,
                     trace := s.trace ++ [Ev.fetchEv i b.url] }
      | .fetched cur links =>
        if s.closed = true then
          { s with crashed := true,
                   branches := s.branches.set i ⟨b.url, BState.halted⟩,
                   trace := s.trace ++ [Ev.pushClosed b.url] }
        else
          { s with queue := s.queue ++ [b.url],
                   branches := s.branches.set i ⟨b.url, BState.sent cur links⟩,
                   trace := s.trace ++ [Ev.pushEv b.url] }
      | .sent cur links =>
        if cur < cfg.maxURLs then
          { s with branches := (s.branches.set i ⟨b.url, BState.halted⟩)
                     ++ links.map (fun c => ⟨c, BState.ready⟩),
                   trace := s.trace ++ spawnEvs b.url s.branches.length links }
        else
          { s with branches := s.branches.set i ⟨b.url, BState.halted⟩ }
      | .halted => s

/-- Run the discovery machine under a schedule from the initial state. -/
def runDiscover (cfg : Cfg) (sched : List Actor) : DState :=
  sched.foldl (discoverStep cfg) (initState cfg)

/-- Events that are an admission success for URL u. -/
def isAdmitTFor (u : String) : Ev → Bool
  | .admitT _ v => v == u
  | _ => false

/-- Events that are a completed worklist send of URL u. -/
def isPushFor (u : String) : Ev → Bool
  | .pushEv v => v == u
  | _ => false

/-- Events that are a discovery fetch of URL u. -/
def isFetchFor (u : String) : Ev → Bool
  | .fetchEv _ v => v == u
  | _ => false

/-- Branches on URL u that may still send it on the worklist: admitted
or fetched. -/
def isPushPending (u : String) (b : Branch) : Bool :=
  b.url == u && (match b.st with
    | BState.admitted _ => true
    | BState.fetched _ _ => true
    | _ => false)

/-- Branches on URL u that may still fetch it: admitted. -/
def isFetchPending (u : String) (b : Branch) : Bool :=
  b.url == u && (match b.st with
    | BState.admitted _ => true
    | _ => false)

/-- A trace property: every fetch of URL u by branch i happens after
branch i's admission success on u (the mutex section precedes the
makeRequest call in crawl's body). -/
def FetchOrder (t : List Ev) : Prop :=
  ∀ (j i : Nat) (u : String), t[j]? = some (Ev.fetchEv i u) →
    ∃ k, k < j ∧ t[k]? = some (Ev.admitT i u)

/-- A trace property: every spawn of a child happens after the parent's
completed worklist send (the send at line 260 precedes the spawn loop
at lines 263-267). -/
def SpawnOrder (t : List Ev) : Prop :=
  ∀ (j : Nat) (p : String) (i : Nat) (c : String), t[j]? = some (Ev.spawnEv p i c) →
    ∃ k, k < j ∧ t[k]? = some (Ev.pushEv p)

/-- A trace property: every admission attempt of a non-seed branch
happens after that branch's spawn, which happens after its parent's
completed worklist send. -/
def AdmitOrder (t : List Ev) : Prop :=
  ∀ (j i : Nat) (u : String),
    (t[j]? = some (Ev.admitT i u) ∨ t[j]? = some (Ev.admitF i u)) →
    i = 0 ∨ ∃ p k m, k < j ∧ t[k]? = some (Ev.spawnEv p i u)
      ∧ m < j ∧ t[m]? = some (Ev.pushEv p)

/-- The inductive invariant of the discovery machine.  It ties the
event history to the branch and frontier state: admission successes
count the visited set; completed sends and still-pending branches are
covered by admission successes per URL, and likewise fetches; the
counter mirrors the visited set; a fetched or sent branch really got a
200 response, and a sent branch really pushed; every fetch follows the
same branch's admission success; every spawn follows its parent's push;
every non-seed branch was spawned, and its admission events follow both
its spawn and its parent's push. -/
structure DInv (cfg : Cfg) (s : DState) : Prop where
  admit_count : ∀ u, s.trace.countP (isAdmitTFor u) = if u ∈ s.visited then 1 else 0
  push_bound : ∀ u, s.trace.countP (isPushFor u) + s.branches.countP (isPushPending u)
      ≤ s.trace.countP (isAdmitTFor u)
  fetch_bound : ∀ u, s.trace.countP (isFetchFor u) + s.branches.countP (isFetchPending u)
      ≤ s.trace.countP (isAdmitTFor u)
  count_eq : s.count = s.visited.length
  fetched_site : ∀ (i : Nat) (u : String) (cur : Nat) (links : List String),
      s.branches[i]? = some ⟨u, BState.fetched cur links⟩ →
      cfg.site u = FetchOutcome.resp 200 links
  sent_push : ∀ (i : Nat) (u : String) (cur : Nat) (links : List String),
      s.branches[i]? = some ⟨u, BState.sent cur links⟩ →
      Ev.pushEv u ∈ s.trace
  push_site : ∀ u, Ev.pushEv u ∈ s.trace → ∃ ls, cfg.site u = FetchOutcome.resp 200 ls
  admitted_mem : ∀ (i : Nat) (u : String) (cur : Nat),
      s.branches[i]? = some ⟨u, BState.admitted cur⟩ →
      Ev.admitT i u ∈ s.trace ∧ u ∈ s.visited
  fetch_order : FetchOrder s.trace
  fetch_visited : ∀ (i : Nat) (u : String), Ev.fetchEv i u ∈ s.trace → u ∈ s.visited
  spawn_order : SpawnOrder s.trace
  branch_spawned : ∀ (i : Nat) (b : Branch), s.branches[i]? = some b → i ≠ 0 →
      ∃ p, Ev.spawnEv p i b.url ∈ s.trace
  admit_order : AdmitOrder s.trace

/-! ## The entry point before discovery starts -/

/-- What main's start-up can come to before discovery begins. -/
inductive SetupResult
  | fatal (msg : String)
  | running (workers : List Nat)
  deriving DecidableEq

/-- The worker count main hardcodes (main.go line 366). -/
def numWorkers : Nat := 5

/-- The start-up sequence of main before discovery begins (main.go
lines 347-377): initialize the database, aborting fatally on failure;
otherwise start workerCount workers with a plain counting loop and
proceed to discovery.  No path on this sequence inspects the worker
count. -/
def mainSetup (dbOk : Bool) (workerCount : Nat) : SetupResult :=
  if dbOk = false then SetupResult.fatal "failed to connect database"
  else SetupResult.running (List.range workerCount)

/-! ## Concrete runs of the discovery machine -/

/-- A two-page site: the seed links to one child page, both respond 200. -/
def cfgChild : Cfg :=
  ⟨"s", 100, fun u => if u = "s" then FetchOutcome.resp 200 ["c"]
    else if u = "c" then FetchOutcome.resp 200 [] else FetchOutcome.netErr⟩

/-- A schedule in which the child's fetch outlasts the fixed
five-second sleep: the seed branch finishes, the sleep elapses, done is
signaled and the worklist closed while the child branch is still before
its send. -/
def schedChild : List Actor :=
  [Actor.br 0, Actor.br 0, Actor.br 0, Actor.br 0, Actor.sig, Actor.orch,
   Actor.br 1, Actor.br 1, Actor.br 1]

/-- A site in which the seed links to two pages, the first of which
fails to fetch, under a cap of two admissions. -/
def cfgSlotLoss : Cfg :=
  ⟨"s", 2, fun u => if u = "s" then FetchOutcome.resp 200 ["a", "b"]
    else if u = "a" then FetchOutcome.netErr else FetchOutcome.resp 200 []⟩

/-- A schedule running the seed branch, the failing first child, and
the second child's admission attempt. -/
def schedSlotLoss : List Actor :=
  [Actor.br 0, Actor.br 0, Actor.br 0, Actor.br 0, Actor.br 1, Actor.br 1, Actor.br 2]

/-- Witness configuration for C6: one admitted branch whose fetch
fails at the network level. -/
def cfgC6 : Cfg := ⟨"u", 1, fun _ => FetchOutcome.netErr⟩

/-- Witness state for C6: the single branch just past its admission. -/
def sC6 : DState :=
  ⟨[⟨"u", BState.admitted 1⟩], ["u"], 1, [], false, false, false,
   ⟨0, 0, 0⟩, [Ev.admitT 0 "u"]⟩

/-! ## Frontier lemmas -/

/-- Once a URL is in the visited set, no admission attempt removes it. -/
theorem admitURL_visited_mono (m : Nat) (v u : String) (f : Frontier)
    (h : u ∈ f.visited) : u ∈ (admitURL m v f).2.visited := by
  unfold admitURL
  split
  · exact h
  · exact List.mem_cons_of_mem v h

/-- A URL already in the visited set collects no further true results. -/
theorem truesFor_zero (m : Nat) (u : String) :
    ∀ (us : List String) (f : Frontier), u ∈ f.visited →
      truesFor u (runAdmits m us f).1 = 0 := by
  intro us
  induction us with
  | nil => intro f _; rfl
  | cons v vs ih =>
    intro f h
    by_cases hc : v ∈ f.visited ∨ m ≤ f.count
    · have : truesFor u (runAdmits m (v :: vs) f).1
          = truesFor u (runAdmits m vs f).1 := by
        simp [runAdmits, truesFor, admitURL, hc, List.countP_cons]
      rw [this]
      exact ih f h
    · have hvu : v ≠ u := by
        intro hvu
        exact hc (Or.inl (hvu ▸ h))
      have : truesFor u (runAdmits m (v :: vs) f).1
          = truesFor u (runAdmits m vs ⟨v :: f.visited, f.count + 1⟩).1 := by
        simp [runAdmits, truesFor, admitURL, hc, List.countP_cons, hvu]
      rw [this]
      exact ih _ (List.mem_cons_of_mem v h)

/-- For every serialized sequence of admission attempts, a given URL
collects at most one true result. -/
theorem truesFor_le_one (m : Nat) (u : String) :
    ∀ (us : List String) (f : Frontier), truesFor u (runAdmits m us f).1 ≤ 1 := by
  intro us
  induction us with
  | nil => intro f; exact Nat.zero_le 1
  | cons v vs ih =>
    intro f
    by_cases hc : v ∈ f.visited ∨ m ≤ f.count
    · have : truesFor u (runAdmits m (v :: vs) f).1
          = truesFor u (runAdmits m vs f).1 := by
        simp [runAdmits, truesFor, admitURL, hc, List.countP_cons]
      rw [this]
      exact ih f
    · by_cases hvu : v = u
      · subst hvu
        have : truesFor v (runAdmits m (v :: vs) f).1
            = truesFor v (runAdmits m vs ⟨v :: f.visited, f.count + 1⟩).1 + 1 := by
          simp [runAdmits, truesFor, admitURL, hc, List.countP_cons]
        rw [this]
        have hz : truesFor v (runAdmits m vs ⟨v :: f.visited, f.count + 1⟩).1 = 0 :=
          truesFor_zero m v vs ⟨v :: f.visited, f.count + 1⟩
            (List.mem_cons_self v f.visited)
        omega
      · have : truesFor u (runAdmits m (v :: vs) f).1
            = truesFor u (runAdmits m vs ⟨v :: f.visited, f.count + 1⟩).1 := by
          simp [runAdmits, truesFor, admitURL, hc, List.countP_cons, hvu]
        rw [this]
        exact ih _

/-- The final admission counter equals its start plus the number of
true results. -/
theorem runAdmits_count_eq (m : Nat) :
    ∀ (us : List String) (f : Frontier),
      (runAdmits m us f).2.count = f.count + truesTotal (runAdmits m us f).1 := by
  intro us
  induction us with
  | nil => intro f; rfl
  | cons v vs ih =>
    intro f
    by_cases hc : v ∈ f.visited ∨ m ≤ f.count
    · have h1 : (runAdmits m (v :: vs) f).2 = (runAdmits m vs f).2 := by
        simp [runAdmits, admitURL, hc]
      have h2 : truesTotal (runAdmits m (v :: vs) f).1
          = truesTotal (runAdmits m vs f).1 := by
        simp [runAdmits, truesTotal, admitURL, hc, List.countP_cons]
      rw [h1, h2, ih f]
    · have h1 : (runAdmits m (v :: vs) f).2
          = (runAdmits m vs ⟨v :: f.visited, f.count + 1⟩).2 := by
        simp [runAdmits, admitURL, hc]
      have h2 : truesTotal (runAdmits m (v :: vs) f).1
          = truesTotal (runAdmits m vs ⟨v :: f.visited, f.count + 1⟩).1 + 1 := by
        simp [runAdmits, truesTotal, admitURL, hc, List.countP_cons]
      rw [h1, h2, ih ⟨v :: f.visited, f.count + 1⟩]
      have hcnt : (⟨v :: f.visited, f.count + 1⟩ : Frontier).count = f.count + 1 := rfl
      omega

/-- The admission counter never passes the cap: the increment happens
only under the same atomic check that compares against the cap. -/
theorem runAdmits_count_le (m : Nat) :
    ∀ (us : List String) (f : Frontier), f.count ≤ m →
      (runAdmits m us f).2.count ≤ m := by
  intro us
  induction us with
  | nil => intro f h; exact h
  | cons v vs ih =>
    intro f h
    by_cases hc : v ∈ f.visited ∨ m ≤ f.count
    · have h1 : (runAdmits m (v :: vs) f).2 = (runAdmits m vs f).2 := by
        simp [runAdmits, admitURL, hc]
      rw [h1]
      exact ih f h
    · have h1 : (runAdmits m (v :: vs) f).2
          = (runAdmits m vs ⟨v :: f.visited, f.count + 1⟩).2 := by
        simp [runAdmits, admitURL, hc]
      rw [h1]
      have : f.count < m := by
        rcases Nat.lt_or_ge f.count m with hlt | hge
        · exact hlt
        · exact absurd (Or.inr hge) hc
      exact ih _ this

/-! ## Worker lemmas -/

/-- Every popped item adds exactly one to succeeded + failed: each
control path of scrapeURLFromWorklist increments exactly one of the two
counters. -/
theorem workerRun_succeeded_failed (os : List ScrapeOutcome) :
    ∀ st : Stats, (workerRun os st).succeeded + (workerRun os st).failed
      = st.succeeded + st.failed + os.length := by
  induction os with
  | nil => intro st; rfl
  | cons o os ih =>
    intro st
    have h1 : workerRun (o :: os) st = workerRun os (scrapeURLFromWorklist o st).1 := rfl
    rw [h1, ih]
    cases o <;> simp [scrapeURLFromWorklist] <;> omega

/-! ## extractLinks lemmas -/

/-- With a non-nil base the attribute loop never dereferences nil. -/
theorem hrefFold_some (lib : URLLib) (b : String) :
    ∀ (attrs : List (String × String)) (acc : List String),
      ∃ acc2, hrefFold lib (some b) attrs acc = some acc2 := by
  intro attrs
  induction attrs with
  | nil => intro acc; exact ⟨acc, rfl⟩
  | cons a rest ih =>
    intro acc
    unfold hrefFold
    split
    · cases hr : lib.resolve b a.2 with
      | none => simpa [hr] using ih acc
      | some l => simpa [hr] using ih (acc ++ [l])
    · exact ih acc

/-- With a non-nil base the token loop always returns a link list. -/
theorem tokenFold_links (lib : URLLib) (b : String) :
    ∀ (toks : List Token) (acc : List String),
      ∃ ls, tokenFold lib (some b) toks acc = ExtractResult.links ls := by
  intro toks
  induction toks with
  | nil => intro acc; exact ⟨acc, rfl⟩
  | cons t rest ih =>
    intro acc
    cases t with
    | other => exact ih acc
    | startTag name attrs =>
      unfold tokenFold
      split
      · obtain ⟨acc2, h2⟩ := hrefFold_some lib b attrs acc
        rw [h2]
        exact ih acc2
      · exact ih acc

/-! ## List and event helpers -/

/-- Setting one element trades its count contribution for the new
element's. -/
theorem countP_set_add {α : Type} (p : α → Bool) :
    ∀ (l : List α) (i : Nat) (a : α) (h : i < l.length),
      (l.set i a).countP p + (if p (l.get ⟨i, h⟩) then 1 else 0)
        = l.countP p + (if p a then 1 else 0) := by
  intro l
  induction l with
  | nil => intro i a h; exact absurd h (Nat.not_lt_zero i)
  | cons x xs ih =>
    intro i a h
    cases i with
    | zero =>
      simp only [List.set, List.countP_cons, List.get]
      omega
    | succ n =>
      have hn : n < xs.length := Nat.lt_of_succ_lt_succ h
      have := ih n a hn
      simp only [List.set, List.countP_cons, List.get]
      omega

/-- Count of a one-element list. -/
theorem countP_singleton {α : Type} (q : α → Bool) (e : α) :
    List.countP q [e] = if q e then 1 else 0 := by
  simp [List.countP_cons]

/-- countP_set_add restated through getElem?. -/
theorem countP_set_swap {α : Type} (p : α → Bool) (l : List α) (i : Nat) (a b : α)
    (hb : l[i]? = some b) :
    (l.set i a).countP p + (if p b then 1 else 0)
      = l.countP p + (if p a then 1 else 0) := by
  obtain ⟨h, hval⟩ := List.getElem?_eq_some.mp hb
  have hget := countP_set_add p l i a h
  rw [List.get_eq_getElem] at hget
  rw [hval] at hget
  exact hget

/-- Appending one element a predicate rejects keeps the count. -/
theorem countP_append_inert {α : Type} (t : List α) (q : α → Bool) (e : α)
    (hq : q e = false) : (t ++ [e]).countP q = t.countP q := by
  rw [List.countP_append, countP_singleton, hq]
  simp

/-- A member of a list sits at some valid position. -/
theorem mem_pos {α : Type} (t : List α) (e : α) (h : e ∈ t) :
    ∃ k, k < t.length ∧ t[k]? = some e := by
  obtain ⟨n, hn⟩ := List.mem_iff_getElem?.mp h
  obtain ⟨hlt, _⟩ := List.getElem?_eq_some.mp hn
  exact ⟨n, hlt, hn⟩

/-- A position of an appended list is in the left or the right part. -/
theorem getElem?_append_cases {α : Type} (t es : List α) (j : Nat) (x : α)
    (h : (t ++ es)[j]? = some x) :
    (j < t.length ∧ t[j]? = some x) ∨ (t.length ≤ j ∧ es[j - t.length]? = some x) := by
  by_cases hj : j < t.length
  · rw [List.getElem?_append_left hj] at h
    exact Or.inl ⟨hj, h⟩
  · rw [List.getElem?_append_right (Nat.le_of_not_lt hj)] at h
    exact Or.inr ⟨Nat.le_of_not_lt hj, h⟩

/-- The only occupied position of a singleton list. -/
theorem singleton_getElem? {α : Type} (e x : α) (j : Nat)
    (h : ([e] : List α)[j]? = some x) : j = 0 ∧ x = e := by
  cases j with
  | zero =>
    simp only [List.getElem?_cons_zero, Option.some.injEq] at h
    exact ⟨rfl, h.symm⟩
  | succ n => simp at h

/-- Every event of a spawn block is a spawn event of the same parent. -/
theorem mem_spawnEvs (p : String) :
    ∀ (links : List String) (base : Nat) (e : Ev),
      e ∈ spawnEvs p base links → ∃ k c, e = Ev.spawnEv p k c := by
  intro links
  induction links with
  | nil => intro base e h; simp [spawnEvs] at h
  | cons c cs ih =>
    intro base e h
    simp only [spawnEvs, List.mem_cons] at h
    rcases h with h | h
    · exact ⟨base, c, h⟩
    · exact ih (base + 1) e h

/-- A predicate false on every spawn event counts a spawn block as
zero. -/
theorem countP_spawnEvs_zero (q : Ev → Bool)
    (hq : ∀ a b c, q (Ev.spawnEv a b c) = false) (p : String) :
    ∀ (links : List String) (base : Nat), (spawnEvs p base links).countP q = 0 := by
  intro links
  induction links with
  | nil => intro base; rfl
  | cons c cs ih =>
    intro base
    simp [spawnEvs, List.countP_cons, hq, ih (base + 1)]

/-- The spawn block holds the spawn event of each child index. -/
theorem spawnEv_mem_spawnEvs (p : String) :
    ∀ (links : List String) (base k : Nat) (hk : k < links.length),
      Ev.spawnEv p (base + k) (links.get ⟨k, hk⟩) ∈ spawnEvs p base links := by
  intro links
  induction links with
  | nil => intro base k hk; exact absurd hk (Nat.not_lt_zero k)
  | cons c cs ih =>
    intro base k hk
    cases k with
    | zero => simp [spawnEvs]
    | succ n =>
      have h2 := ih (base + 1) n (Nat.lt_of_succ_lt_succ hk)
      simp only [spawnEvs, List.mem_cons]
      right
      have harith : base + (n + 1) = (base + 1) + n := by omega
      simpa [harith] using h2

/-! ## Trace-order extension lemmas -/

/-- FetchOrder survives appending events whose fetches (if any) already
have their admission success in the old trace. -/
theorem fetchOrder_append (t es : List Ev) (h : FetchOrder t)
    (hnew : ∀ (j i : Nat) (u : String), es[j]? = some (Ev.fetchEv i u) →
      Ev.admitT i u ∈ t) : FetchOrder (t ++ es) := by
  intro j i u hj
  rcases getElem?_append_cases t es j _ hj with ⟨hlt, hj2⟩ | ⟨hge, hj2⟩
  · obtain ⟨k, hk, hk2⟩ := h j i u hj2
    exact ⟨k, hk, by rw [List.getElem?_append_left (Nat.lt_trans hk hlt)]; exact hk2⟩
  · obtain ⟨k, hk, hk2⟩ := mem_pos t _ (hnew (j - t.length) i u hj2)
    exact ⟨k, Nat.lt_of_lt_of_le hk hge,
      by rw [List.getElem?_append_left hk]; exact hk2⟩

/-- SpawnOrder survives appending events whose spawns (if any) already
have their parent's push in the old trace. -/
theorem spawnOrder_append (t es : List Ev) (h : SpawnOrder t)
    (hnew : ∀ (j : Nat) (p : String) (i : Nat) (c : String),
      es[j]? = some (Ev.spawnEv p i c) → Ev.pushEv p ∈ t) :
    SpawnOrder (t ++ es) := by
  intro j p i c hj
  rcases getElem?_append_cases t es j _ hj with ⟨hlt, hj2⟩ | ⟨hge, hj2⟩
  · obtain ⟨k, hk, hk2⟩ := h j p i c hj2
    exact ⟨k, hk, by rw [List.getElem?_append_left (Nat.lt_trans hk hlt)]; exact hk2⟩
  · obtain ⟨k, hk, hk2⟩ := mem_pos t _ (hnew (j - t.length) p i c hj2)
    exact ⟨k, Nat.lt_of_lt_of_le hk hge,
      by rw [List.getElem?_append_left hk]; exact hk2⟩

/-- AdmitOrder survives appending events whose admission attempts (if
any) already have their spawn and their parent's push in the old
trace. -/
theorem admitOrder_append (t es : List Ev) (h : AdmitOrder t)
    (hnew : ∀ (j i : Nat) (u : String),
      (es[j]? = some (Ev.admitT i u) ∨ es[j]? = some (Ev.admitF i u)) →
      i = 0 ∨ ∃ p, Ev.spawnEv p i u ∈ t ∧ Ev.pushEv p ∈ t) :
    AdmitOrder (t ++ es) := by
  intro j i u hj
  have hsplit : (j < t.length ∧ (t[j]? = some (Ev.admitT i u) ∨ t[j]? = some (Ev.admitF i u)))
      ∨ (t.length ≤ j ∧ (es[j - t.length]? = some (Ev.admitT i u)
          ∨ es[j - t.length]? = some (Ev.admitF i u))) := by
    rcases hj with hj | hj
    · rcases getElem?_append_cases t es j _ hj with ⟨hlt, hj2⟩ | ⟨hge, hj2⟩
      · exact Or.inl ⟨hlt, Or.inl hj2⟩
      · exact Or.inr ⟨hge, Or.inl hj2⟩
    · rcases getElem?_append_cases t es j _ hj with ⟨hlt, hj2⟩ | ⟨hge, hj2⟩
      · exact Or.inl ⟨hlt, Or.inr hj2⟩
      · exact Or.inr ⟨hge, Or.inr hj2⟩
  rcases hsplit with ⟨hlt, hj2⟩ | ⟨hge, hj2⟩
  · rcases h j i u hj2 with h0 | ⟨p, k, m, hk, hk2, hm, hm2⟩
    · exact Or.inl h0
    · refine Or.inr ⟨p, k, m, hk, ?_, hm, ?_⟩
      · rw [List.getElem?_append_left (Nat.lt_trans hk hlt)]; exact hk2
      · rw [List.getElem?_append_left (Nat.lt_trans hm hlt)]; exact hm2
  · rcases hnew (j - t.length) i u hj2 with h0 | ⟨p, hsp, hpu⟩
    · exact Or.inl h0
    · obtain ⟨k, hk, hk2⟩ := mem_pos t _ hsp
      obtain ⟨m, hm, hm2⟩ := mem_pos t _ hpu
      refine Or.inr ⟨p, k, m, Nat.lt_of_lt_of_le hk hge, ?_,
        Nat.lt_of_lt_of_le hm hge, ?_⟩
      · rw [List.getElem?_append_left hk]; exact hk2
      · rw [List.getElem?_append_left hm]; exact hm2

/-! ## Invariant: initial state and transitions -/

/-- The invariant holds at the start of discovery. -/
theorem dinv_init (cfg : Cfg) : DInv cfg (initState cfg) := by
  refine ⟨?_, ?_, ?_, ?_, ?_, ?_, ?_, ?_, ?_, ?_, ?_, ?_, ?_⟩
  · intro u; simp [initState]
  · intro u; simp [initState, isPushPending]
  · intro u; simp [initState, isFetchPending]
  · rfl
  · intro i u cur links hb
    cases i <;> simp [initState] at hb
  · intro i u cur links hb
    cases i <;> simp [initState] at hb
  · intro u hu; simp [initState] at hu
  · intro i u cur hb
    cases i <;> simp [initState] at hb
  · intro j i u hj; simp [initState] at hj
  · intro i u hu; simp [initState] at hu
  · intro j p i c hj; simp [initState] at hj
  · intro i b hb hi
    cases i with
    | zero => exact absurd rfl hi
    | succ n => simp [initState] at hb
  · intro j i u hj
    rcases hj with hj | hj <;> simp [initState] at hj

/-- The done and close steps only flip a flag and append an event that
matches no admission, fetch, push or spawn: the invariant is
untouched. -/
theorem dinv_inert (cfg : Cfg) (s : DState) (e : Ev) (cl dn : Bool)
    (he : e = Ev.doneEv ∨ e = Ev.closeEv) (h : DInv cfg s) :
    DInv cfg { s with closed := cl, doneSig := dn, trace := s.trace ++ [e] } := by
  have heA : ∀ u, isAdmitTFor u e = false := by
    rcases he with h1 | h1 <;> subst h1 <;> intro u <;> rfl
  have heP : ∀ u, isPushFor u e = false := by
    rcases he with h1 | h1 <;> subst h1 <;> intro u <;> rfl
  have heF : ∀ u, isFetchFor u e = false := by
    rcases he with h1 | h1 <;> subst h1 <;> intro u <;> rfl
  have hcnt : ∀ (q : Ev → Bool), q e = false →
      (s.trace ++ [e]).countP q = s.trace.countP q := by
    intro q hq
    rw [List.countP_append]
    simp [hq]
  refine ⟨?_, ?_, ?_, ?_, ?_, ?_, ?_, ?_, ?_, ?_, ?_, ?_, ?_⟩
  · intro u
    show (s.trace ++ [e]).countP (isAdmitTFor u) = if u ∈ s.visited then 1 else 0
    rw [hcnt _ (heA u)]
    exact h.admit_count u
  · intro u
    show (s.trace ++ [e]).countP (isPushFor u) + s.branches.countP (isPushPending u)
      ≤ (s.trace ++ [e]).countP (isAdmitTFor u)
    rw [hcnt _ (heP u), hcnt _ (heA u)]
    exact h.push_bound u
  · intro u
    show (s.trace ++ [e]).countP (isFetchFor u) + s.branches.countP (isFetchPending u)
      ≤ (s.trace ++ [e]).countP (isAdmitTFor u)
    rw [hcnt _ (heF u), hcnt _ (heA u)]
    exact h.fetch_bound u
  · exact h.count_eq
  · exact fun i u cur links hb => h.fetched_site i u cur links hb
  · exact fun i u cur links hb => List.mem_append_left [e] (h.sent_push i u cur links hb)
  · intro u hu
    rcases List.mem_append.mp hu with hu | hu
    · exact h.push_site u hu
    · have h2 : Ev.pushEv u = e := List.mem_singleton.mp hu
      rcases he with h1 | h1 <;> rw [h1] at h2 <;> exact Ev.noConfusion h2
  · intro i u cur hb
    obtain ⟨h1, h2⟩ := h.admitted_mem i u cur hb
    exact ⟨List.mem_append_left [e] h1, h2⟩
  · refine fetchOrder_append s.trace [e] h.fetch_order ?_
    intro j i u hj
    obtain ⟨_, h2⟩ := singleton_getElem? e _ j hj
    rcases he with h1 | h1 <;> rw [h1] at h2 <;> exact Ev.noConfusion h2
  · intro i u hu
    rcases List.mem_append.mp hu with hu | hu
    · exact h.fetch_visited i u hu
    · have h2 : Ev.fetchEv i u = e := List.mem_singleton.mp hu
      rcases he with h1 | h1 <;> rw [h1] at h2 <;> exact Ev.noConfusion h2
  · refine spawnOrder_append s.trace [e] h.spawn_order ?_
    intro j p i c hj
    obtain ⟨_, h2⟩ := singleton_getElem? e _ j hj
    rcases he with h1 | h1 <;> rw [h1] at h2 <;> exact Ev.noConfusion h2
  · intro i b hb hi
    obtain ⟨p, hp⟩ := h.branch_spawned i b hb hi
    exact ⟨p, List.mem_append_left [e] hp⟩
  · refine admitOrder_append s.trace [e] h.admit_order ?_
    intro j i u hj
    rcases hj with hj | hj <;> obtain ⟨_, h2⟩ := singleton_getElem? e _ j hj <;>
      rcases he with h1 | h1 <;> rw [h1] at h2 <;> exact Ev.noConfusion h2

/-- The successful admission step: branch i passes the mutex section,
u enters the visited set, the counter rises, and the branch moves to
admitted. -/
theorem dinv_admitT (cfg : Cfg) (s : DState) (i : Nat) (u : String)
    (hb : s.branches[i]? = some ⟨u, BState.ready⟩)
    (hnv : u ∉ s.visited)
    (h : DInv cfg s) :
    DInv cfg { s with
      branches := s.branches.set i ⟨u, BState.admitted (s.count + 1)⟩,
      visited := u :: s.visited, count := s.count + 1,
      trace := s.trace ++ [Ev.admitT i u] } := by
  have hlen : i < s.branches.length := (List.getElem?_eq_some.mp hb).1
  have hset : (s.branches.set i ⟨u, BState.admitted (s.count + 1)⟩)[i]?
      = some ⟨u, BState.admitted (s.count + 1)⟩ := by
    rw [List.getElem?_set]
    simp [hlen]
  have hA0 : s.trace.countP (isAdmitTFor u) = 0 := by
    rw [h.admit_count u]
    simp [hnv]
  refine ⟨?_, ?_, ?_, ?_, ?_, ?_, ?_, ?_, ?_, ?_, ?_, ?_, ?_⟩
  · intro v
    show (s.trace ++ [Ev.admitT i u]).countP (isAdmitTFor v)
      = if v ∈ u :: s.visited then 1 else 0
    rw [List.countP_append, countP_singleton]
    by_cases hv : v = u
    · subst hv
      have h1 : isAdmitTFor v (Ev.admitT i v) = true := by simp [isAdmitTFor]
      rw [h1, hA0]
      simp [List.mem_cons]
    · have h1 : isAdmitTFor v (Ev.admitT i u) = false := by
        simp [isAdmitTFor]
        exact fun hc => hv hc.symm
      rw [h1, h.admit_count v]
      simp [List.mem_cons, hv]
  · intro v
    show (s.trace ++ [Ev.admitT i u]).countP (isPushFor v)
        + (s.branches.set i ⟨u, BState.admitted (s.count + 1)⟩).countP (isPushPending v)
      ≤ (s.trace ++ [Ev.admitT i u]).countP (isAdmitTFor v)
    have hswap := countP_set_swap (isPushPending v) s.branches i
      ⟨u, BState.admitted (s.count + 1)⟩ ⟨u, BState.ready⟩ hb
    have hold : isPushPending v (⟨u, BState.ready⟩ : Branch) = false := by
      simp [isPushPending]
    rw [hold] at hswap
    have hL : (s.trace ++ [Ev.admitT i u]).countP (isPushFor v)
        = s.trace.countP (isPushFor v) := by
      rw [List.countP_append, countP_singleton]
      simp [isPushFor]
    have hbd := h.push_bound v
    by_cases hv : v = u
    · subst hv
      have hnew : isPushPending v (⟨v, BState.admitted (s.count + 1)⟩ : Branch) = true := by
        simp [isPushPending]
      rw [hnew] at hswap
      simp at hswap
      have hR : (s.trace ++ [Ev.admitT i v]).countP (isAdmitTFor v)
          = s.trace.countP (isAdmitTFor v) + 1 := by
        rw [List.countP_append, countP_singleton]
        simp [isAdmitTFor]
      rw [hL, hR]
      omega
    · have hnew : isPushPending v (⟨u, BState.admitted (s.count + 1)⟩ : Branch) = false := by
        simp [isPushPending]
        exact fun hc => absurd hc.symm hv
      rw [hnew] at hswap
      simp at hswap
      have hR : (s.trace ++ [Ev.admitT i u]).countP (isAdmitTFor v)
          = s.trace.countP (isAdmitTFor v) := by
        rw [List.countP_append, countP_singleton]
        have h1 : isAdmitTFor v (Ev.admitT i u) = false := by
          simp [isAdmitTFor]
          exact fun hc => hv hc.symm
        simp [h1]
      rw [hL, hR]
      omega
  · intro v
    show (s.trace ++ [Ev.admitT i u]).countP (isFetchFor v)
        + (s.branches.set i ⟨u, BState.admitted (s.count + 1)⟩).countP (isFetchPending v)
      ≤ (s.trace ++ [Ev.admitT i u]).countP (isAdmitTFor v)
    have hswap := countP_set_swap (isFetchPending v) s.branches i
      ⟨u, BState.admitted (s.count + 1)⟩ ⟨u, BState.ready⟩ hb
    have hold : isFetchPending v (⟨u, BState.ready⟩ : Branch) = false := by
      simp [isFetchPending]
    rw [hold] at hswap
    have hL : (s.trace ++ [Ev.admitT i u]).countP (isFetchFor v)
        = s.trace.countP (isFetchFor v) := by
      rw [List.countP_append, countP_singleton]
      simp [isFetchFor]
    have hbd := h.fetch_bound v
    by_cases hv : v = u
    · subst hv
      have hnew : isFetchPending v (⟨v, BState.admitted (s.count + 1)⟩ : Branch) = true := by
        simp [isFetchPending]
      rw [hnew] at hswap
      simp at hswap
      have hR : (s.trace ++ [Ev.admitT i v]).countP (isAdmitTFor v)
          = s.trace.countP (isAdmitTFor v) + 1 := by
        rw [List.countP_append, countP_singleton]
        simp [isAdmitTFor]
      rw [hL, hR]
      omega
    · have hnew : isFetchPending v (⟨u, BState.admitted (s.count + 1)⟩ : Branch) = false := by
        simp [isFetchPending]
        exact fun hc => absurd hc.symm hv
      rw [hnew] at hswap
      simp at hswap
      have hR : (s.trace ++ [Ev.admitT i u]).countP (isAdmitTFor v)
          = s.trace.countP (isAdmitTFor v) := by
        rw [List.countP_append, countP_singleton]
        have h1 : isAdmitTFor v (Ev.admitT i u) = false := by
          simp [isAdmitTFor]
          exact fun hc => hv hc.symm
        simp [h1]
      rw [hL, hR]
      omega
  · show s.count + 1 = (u :: s.visited).length
    simp [h.count_eq]
  · intro j v cur links hbj
    by_cases hji : j = i
    · subst hji
      rw [hset] at hbj
      simp at hbj
    · rw [List.getElem?_set_ne (fun he => hji he.symm)] at hbj
      exact h.fetched_site j v cur links hbj
  · intro j v cur links hbj
    by_cases hji : j = i
    · subst hji
      rw [hset] at hbj
      simp at hbj
    · rw [List.getElem?_set_ne (fun he => hji he.symm)] at hbj
      exact List.mem_append_left _ (h.sent_push j v cur links hbj)
  · intro v hv
    rcases List.mem_append.mp hv with hv | hv
    · exact h.push_site v hv
    · exact Ev.noConfusion (List.mem_singleton.mp hv)
  · intro j v cur hbj
    by_cases hji : j = i
    · subst hji
      rw [hset] at hbj
      have h2 := Option.some.inj hbj
      cases h2
      exact ⟨List.mem_append_right _ (List.mem_singleton.mpr rfl),
        List.mem_cons_self u s.visited⟩
    · rw [List.getElem?_set_ne (fun he => hji he.symm)] at hbj
      obtain ⟨h1, h2⟩ := h.admitted_mem j v cur hbj
      exact ⟨List.mem_append_left _ h1, List.mem_cons_of_mem u h2⟩
  · refine fetchOrder_append s.trace _ h.fetch_order ?_
    intro j i2 u2 hj
    obtain ⟨_, h2⟩ := singleton_getElem? _ _ j hj
    exact Ev.noConfusion h2
  · intro i2 u2 hu
    rcases List.mem_append.mp hu with hu | hu
    · exact List.mem_cons_of_mem u (h.fetch_visited i2 u2 hu)
    · exact Ev.noConfusion (List.mem_singleton.mp hu)
  · refine spawnOrder_append s.trace _ h.spawn_order ?_
    intro j p i2 c hj
    obtain ⟨_, h2⟩ := singleton_getElem? _ _ j hj
    exact Ev.noConfusion h2
  · intro j b hbj hj0
    by_cases hji : j = i
    · subst hji
      rw [hset] at hbj
      have h2 := Option.some.inj hbj
      obtain ⟨p, hp⟩ := h.branch_spawned j ⟨u, BState.ready⟩ hb hj0
      refine ⟨p, List.mem_append_left _ ?_⟩
      rw [← h2]
      exact hp
    · rw [List.getElem?_set_ne (fun he => hji he.symm)] at hbj
      obtain ⟨p, hp⟩ := h.branch_spawned j b hbj hj0
      exact ⟨p, List.mem_append_left _ hp⟩
  · refine admitOrder_append s.trace _ h.admit_order ?_
    intro j i2 u2 hj
    have h2 : Ev.admitT i2 u2 = Ev.admitT i u := by
      rcases hj with hj | hj
      · exact (singleton_getElem? _ _ j hj).2
      · exact Ev.noConfusion (singleton_getElem? _ _ j hj).2
    have hi2 : i2 = i := by
      injection h2
    have hu2 : u2 = u := by
      injection h2
    subst hi2
    subst hu2
    by_cases hi0 : i2 = 0
    · exact Or.inl hi0
    · obtain ⟨p, hp⟩ := h.branch_spawned i2 ⟨u2, BState.ready⟩ hb hi0
      obtain ⟨k, _, hk2⟩ := mem_pos s.trace _ hp
      obtain ⟨m, _, hm2⟩ := h.spawn_order k p i2 u2 hk2
      exact Or.inr ⟨p, hp, List.getElem?_mem hm2⟩

/-- The failed admission step: branch i finds its URL visited or the
cap reached, and halts with no side effect on the shared state. -/
theorem dinv_admitF (cfg : Cfg) (s : DState) (i : Nat) (u : String)
    (hb : s.branches[i]? = some ⟨u, BState.ready⟩)
    (h : DInv cfg s) :
    DInv cfg { s with branches := s.branches.set i ⟨u, BState.halted⟩,
                      trace := s.trace ++ [Ev.admitF i u] } := by
  have hlen : i < s.branches.length := (List.getElem?_eq_some.mp hb).1
  have hset : (s.branches.set i ⟨u, BState.halted⟩)[i]? = some ⟨u, BState.halted⟩ := by
    rw [List.getElem?_set]
    simp [hlen]
  have hpend : ∀ (q : Branch → Bool), q ⟨u, BState.ready⟩ = false →
      q ⟨u, BState.halted⟩ = false →
      (s.branches.set i ⟨u, BState.halted⟩).countP q = s.branches.countP q := by
    intro q h1 h2
    have hswap := countP_set_swap q s.branches i ⟨u, BState.halted⟩ ⟨u, BState.ready⟩ hb
    rw [h1, h2] at hswap
    simpa using hswap
  refine ⟨?_, ?_, ?_, ?_, ?_, ?_, ?_, ?_, ?_, ?_, ?_, ?_, ?_⟩
  · intro v
    show (s.trace ++ [Ev.admitF i u]).countP (isAdmitTFor v) = if v ∈ s.visited then 1 else 0
    rw [countP_append_inert _ _ _ rfl]
    exact h.admit_count v
  · intro v
    show (s.trace ++ [Ev.admitF i u]).countP (isPushFor v)
        + (s.branches.set i ⟨u, BState.halted⟩).countP (isPushPending v)
      ≤ (s.trace ++ [Ev.admitF i u]).countP (isAdmitTFor v)
    rw [countP_append_inert _ _ _ rfl, countP_append_inert _ _ _ rfl,
      hpend _ (by simp [isPushPending]) (by simp [isPushPending])]
    exact h.push_bound v
  · intro v
    show (s.trace ++ [Ev.admitF i u]).countP (isFetchFor v)
        + (s.branches.set i ⟨u, BState.halted⟩).countP (isFetchPending v)
      ≤ (s.trace ++ [Ev.admitF i u]).countP (isAdmitTFor v)
    rw [countP_append_inert _ _ _ rfl, countP_append_inert _ _ _ rfl,
      hpend _ (by simp [isFetchPending]) (by simp [isFetchPending])]
    exact h.fetch_bound v
  · exact h.count_eq
  · intro j v cur links hbj
    by_cases hji : j = i
    · subst hji
      rw [hset] at hbj
      simp at hbj
    · rw [List.getElem?_set_ne (fun he => hji he.symm)] at hbj
      exact h.fetched_site j v cur links hbj
  · intro j v cur links hbj
    by_cases hji : j = i
    · subst hji
      rw [hset] at hbj
      simp at hbj
    · rw [List.getElem?_set_ne (fun he => hji he.symm)] at hbj
      exact List.mem_append_left _ (h.sent_push j v cur links hbj)
  · intro v hv
    rcases List.mem_append.mp hv with hv | hv
    · exact h.push_site v hv
    · exact Ev.noConfusion (List.mem_singleton.mp hv)
  · intro j v cur hbj
    by_cases hji : j = i
    · subst hji
      rw [hset] at hbj
      simp at hbj
    · rw [List.getElem?_set_ne (fun he => hji he.symm)] at hbj
      obtain ⟨h1, h2⟩ := h.admitted_mem j v cur hbj
      exact ⟨List.mem_append_left _ h1, h2⟩
  · refine fetchOrder_append s.trace _ h.fetch_order ?_
    intro j i2 u2 hj
    exact Ev.noConfusion (singleton_getElem? _ _ j hj).2
  · intro i2 u2 hu
    rcases List.mem_append.mp hu with hu | hu
    · exact h.fetch_visited i2 u2 hu
    · exact Ev.noConfusion (List.mem_singleton.mp hu)
  · refine spawnOrder_append s.trace _ h.spawn_order ?_
    intro j p i2 c hj
    exact Ev.noConfusion (singleton_getElem? _ _ j hj).2
  · intro j b hbj hj0
    by_cases hji : j = i
    · subst hji
      rw [hset] at hbj
      have h2 := Option.some.inj hbj
      obtain ⟨p, hp⟩ := h.branch_spawned j ⟨u, BState.ready⟩ hb hj0
      refine ⟨p, List.mem_append_left _ ?_⟩
      rw [← h2]
      exact hp
    · rw [List.getElem?_set_ne (fun he => hji he.symm)] at hbj
      obtain ⟨p, hp⟩ := h.branch_spawned j b hbj hj0
      exact ⟨p, List.mem_append_left _ hp⟩
  · refine admitOrder_append s.trace _ h.admit_order ?_
    intro j i2 u2 hj
    have h2 : Ev.admitF i2 u2 = Ev.admitF i u := by
      rcases hj with hj | hj
      · exact Ev.noConfusion (singleton_getElem? _ _ j hj).2
      · exact (singleton_getElem? _ _ j hj).2
    have hi2 : i2 = i := by injection h2
    have hu2 : u2 = u := by injection h2
    subst hi2
    subst hu2
    by_cases hi0 : i2 = 0
    · exact Or.inl hi0
    · obtain ⟨p, hp⟩ := h.branch_spawned i2 ⟨u2, BState.ready⟩ hb hi0
      obtain ⟨k, _, hk2⟩ := mem_pos s.trace _ hp
      obtain ⟨m, _, hm2⟩ := h.spawn_order k p i2 u2 hk2
      exact Or.inr ⟨p, hp, List.getElem?_mem hm2⟩

/-- The fetch step: branch i calls makeRequest.  On a 200 response it
moves to fetched carrying the body's links; on an error or any other
status it halts.  Either way the fetch event is recorded and the shared
state is untouched. -/
theorem dinv_fetch (cfg : Cfg) (s : DState) (i : Nat) (u : String) (cur : Nat)
    (st2 : BState)
    (hb : s.branches[i]? = some ⟨u, BState.admitted cur⟩)
    (hst2 : (∃ links, st2 = BState.fetched cur links
        ∧ cfg.site u = FetchOutcome.resp 200 links) ∨ st2 = BState.halted)
    (h : DInv cfg s) :
    DInv cfg { s with branches := s.branches.set i ⟨u, st2⟩,
                      trace := s.trace ++ [Ev.fetchEv i u] } := by
  have hlen : i < s.branches.length := (List.getElem?_eq_some.mp hb).1
  have hset : (s.branches.set i ⟨u, st2⟩)[i]? = some ⟨u, st2⟩ := by
    rw [List.getElem?_set]
    simp [hlen]
  have hnotsent : ∀ cur2 links2, st2 ≠ BState.sent cur2 links2 := by
    intro cur2 links2 hcontra
    rcases hst2 with ⟨links, h1, _⟩ | h1 <;> rw [hcontra] at h1 <;> exact BState.noConfusion h1
  have hnotadm : ∀ cur2, st2 ≠ BState.admitted cur2 := by
    intro cur2 hcontra
    rcases hst2 with ⟨links, h1, _⟩ | h1 <;> rw [hcontra] at h1 <;> exact BState.noConfusion h1
  have hadm := h.admitted_mem i u cur hb
  refine ⟨?_, ?_, ?_, ?_, ?_, ?_, ?_, ?_, ?_, ?_, ?_, ?_, ?_⟩
  · intro v
    show (s.trace ++ [Ev.fetchEv i u]).countP (isAdmitTFor v) = if v ∈ s.visited then 1 else 0
    rw [countP_append_inert _ _ _ rfl]
    exact h.admit_count v
  · intro v
    show (s.trace ++ [Ev.fetchEv i u]).countP (isPushFor v)
        + (s.branches.set i ⟨u, st2⟩).countP (isPushPending v)
      ≤ (s.trace ++ [Ev.fetchEv i u]).countP (isAdmitTFor v)
    rw [countP_append_inert _ _ _ rfl, countP_append_inert _ _ _ rfl]
    have hswap := countP_set_swap (isPushPending v) s.branches i
      ⟨u, st2⟩ ⟨u, BState.admitted cur⟩ hb
    have hbd := h.push_bound v
    have hle : (if isPushPending v (⟨u, st2⟩ : Branch) then 1 else 0)
        ≤ (if isPushPending v (⟨u, BState.admitted cur⟩ : Branch) then 1 else 0) := by
      rcases hst2 with ⟨links, h1, _⟩ | h1
      · subst h1
        exact Nat.le_refl _
      · subst h1
        simp [isPushPending]
    omega
  · intro v
    show (s.trace ++ [Ev.fetchEv i u]).countP (isFetchFor v)
        + (s.branches.set i ⟨u, st2⟩).countP (isFetchPending v)
      ≤ (s.trace ++ [Ev.fetchEv i u]).countP (isAdmitTFor v)
    have hR : (s.trace ++ [Ev.fetchEv i u]).countP (isAdmitTFor v)
        = s.trace.countP (isAdmitTFor v) :=
      countP_append_inert s.trace (isAdmitTFor v) (Ev.fetchEv i u) rfl
    have hswap := countP_set_swap (isFetchPending v) s.branches i
      ⟨u, st2⟩ ⟨u, BState.admitted cur⟩ hb
    have hnew : isFetchPending v (⟨u, st2⟩ : Branch) = false := by
      rcases hst2 with ⟨links, h1, _⟩ | h1 <;> subst h1 <;> simp [isFetchPending]
    rw [hnew] at hswap
    simp at hswap
    have hbd := h.fetch_bound v
    by_cases hv : v = u
    · subst hv
      have hL : (s.trace ++ [Ev.fetchEv i v]).countP (isFetchFor v)
          = s.trace.countP (isFetchFor v) + 1 := by
        rw [List.countP_append, countP_singleton]
        simp [isFetchFor]
      have h2 : isFetchPending v (⟨v, BState.admitted cur⟩ : Branch) = true := by
        simp [isFetchPending]
      rw [h2] at hswap
      simp at hswap
      rw [hL, hR]
      omega
    · have hL : (s.trace ++ [Ev.fetchEv i u]).countP (isFetchFor v)
          = s.trace.countP (isFetchFor v) := by
        rw [List.countP_append, countP_singleton]
        have h1 : isFetchFor v (Ev.fetchEv i u) = false := by
          simp [isFetchFor]
          exact fun hc => hv hc.symm
        simp [h1]
      have h2 : isFetchPending v (⟨u, BState.admitted cur⟩ : Branch) = false := by
        simp [isFetchPending]
        exact fun hc => absurd hc.symm hv
      rw [h2] at hswap
      simp at hswap
      rw [hL, hR]
      omega
  · exact h.count_eq
  · intro j v cur2 links2 hbj
    by_cases hji : j = i
    · subst hji
      rw [hset] at hbj
      have h2 := Option.some.inj hbj
      rcases hst2 with ⟨links, h1, hsite⟩ | h1
      · subst h1
        have hv : u = v := congrArg Branch.url h2
        have hst : BState.fetched cur links = BState.fetched cur2 links2 :=
          congrArg Branch.st h2
        have hlk : links = links2 := by injection hst
        subst hv
        subst hlk
        exact hsite
      · subst h1
        have hst : BState.halted = BState.fetched cur2 links2 := congrArg Branch.st h2
        exact BState.noConfusion hst
    · rw [List.getElem?_set_ne (fun he => hji he.symm)] at hbj
      exact h.fetched_site j v cur2 links2 hbj
  · intro j v cur2 links2 hbj
    by_cases hji : j = i
    · subst hji
      rw [hset] at hbj
      have h2 := Option.some.inj hbj
      have hst : st2 = BState.sent cur2 links2 := congrArg Branch.st h2
      exact absurd hst (hnotsent cur2 links2)
    · rw [List.getElem?_set_ne (fun he => hji he.symm)] at hbj
      exact List.mem_append_left _ (h.sent_push j v cur2 links2 hbj)
  · intro v hv
    rcases List.mem_append.mp hv with hv | hv
    · exact h.push_site v hv
    · exact Ev.noConfusion (List.mem_singleton.mp hv)
  · intro j v cur2 hbj
    by_cases hji : j = i
    · subst hji
      rw [hset] at hbj
      have h2 := Option.some.inj hbj
      have hst : st2 = BState.admitted cur2 := congrArg Branch.st h2
      exact absurd hst (hnotadm cur2)
    · rw [List.getElem?_set_ne (fun he => hji he.symm)] at hbj
      obtain ⟨h1, h2⟩ := h.admitted_mem j v cur2 hbj
      exact ⟨List.mem_append_left _ h1, h2⟩
  · refine fetchOrder_append s.trace _ h.fetch_order ?_
    intro j i2 u2 hj
    have h2 := (singleton_getElem? _ _ j hj).2
    have hi2 : i2 = i := by injection h2
    have hu2 : u2 = u := by injection h2
    subst hi2
    subst hu2
    exact hadm.1
  · intro i2 u2 hu
    rcases List.mem_append.mp hu with hu | hu
    · exact h.fetch_visited i2 u2 hu
    · have h2 := List.mem_singleton.mp hu
      have hu2 : u2 = u := by injection h2
      subst hu2
      exact hadm.2
  · refine spawnOrder_append s.trace _ h.spawn_order ?_
    intro j p i2 c hj
    exact Ev.noConfusion (singleton_getElem? _ _ j hj).2
  · intro j b hbj hj0
    by_cases hji : j = i
    · subst hji
      rw [hset] at hbj
      have h2 := Option.some.inj hbj
      obtain ⟨p, hp⟩ := h.branch_spawned j ⟨u, BState.admitted cur⟩ hb hj0
      refine ⟨p, List.mem_append_left _ ?_⟩
      rw [← h2]
      exact hp
    · rw [List.getElem?_set_ne (fun he => hji he.symm)] at hbj
      obtain ⟨p, hp⟩ := h.branch_spawned j b hbj hj0
      exact ⟨p, List.mem_append_left _ hp⟩
  · refine admitOrder_append s.trace _ h.admit_order ?_
    intro j i2 u2 hj
    rcases hj with hj | hj <;> exact Ev.noConfusion (singleton_getElem? _ _ j hj).2

/-- The worklist send step on an open worklist: the URL joins the
queue, the branch moves to sent, the push event is recorded. -/
theorem dinv_push (cfg : Cfg) (s : DState) (i : Nat) (u : String) (cur : Nat)
    (links : List String)
    (hb : s.branches[i]? = some ⟨u, BState.fetched cur links⟩)
    (h : DInv cfg s) :
    DInv cfg { s with queue := s.queue ++ [u],
                      branches := s.branches.set i ⟨u, BState.sent cur links⟩,
                      trace := s.trace ++ [Ev.pushEv u] } := by
  have hlen : i < s.branches.length := (List.getElem?_eq_some.mp hb).1
  have hset : (s.branches.set i ⟨u, BState.sent cur links⟩)[i]?
      = some ⟨u, BState.sent cur links⟩ := by
    rw [List.getElem?_set]
    simp [hlen]
  have hsite := h.fetched_site i u cur links hb
  refine ⟨?_, ?_, ?_, ?_, ?_, ?_, ?_, ?_, ?_, ?_, ?_, ?_, ?_⟩
  · intro v
    show (s.trace ++ [Ev.pushEv u]).countP (isAdmitTFor v) = if v ∈ s.visited then 1 else 0
    rw [countP_append_inert s.trace (isAdmitTFor v) (Ev.pushEv u) rfl]
    exact h.admit_count v
  · intro v
    show (s.trace ++ [Ev.pushEv u]).countP (isPushFor v)
        + (s.branches.set i ⟨u, BState.sent cur links⟩).countP (isPushPending v)
      ≤ (s.trace ++ [Ev.pushEv u]).countP (isAdmitTFor v)
    have hR : (s.trace ++ [Ev.pushEv u]).countP (isAdmitTFor v)
        = s.trace.countP (isAdmitTFor v) :=
      countP_append_inert s.trace (isAdmitTFor v) (Ev.pushEv u) rfl
    have hswap := countP_set_swap (isPushPending v) s.branches i
      ⟨u, BState.sent cur links⟩ ⟨u, BState.fetched cur links⟩ hb
    have hnew : isPushPending v (⟨u, BState.sent cur links⟩ : Branch) = false := by
      simp [isPushPending]
    rw [hnew] at hswap
    simp at hswap
    have hbd := h.push_bound v
    by_cases hv : v = u
    · subst hv
      have hL : (s.trace ++ [Ev.pushEv v]).countP (isPushFor v)
          = s.trace.countP (isPushFor v) + 1 := by
        rw [List.countP_append, countP_singleton]
        simp [isPushFor]
      have h2 : isPushPending v (⟨v, BState.fetched cur links⟩ : Branch) = true := by
        simp [isPushPending]
      rw [h2] at hswap
      simp at hswap
      rw [hL, hR]
      omega
    · have hL : (s.trace ++ [Ev.pushEv u]).countP (isPushFor v)
          = s.trace.countP (isPushFor v) := by
        rw [List.countP_append, countP_singleton]
        have h1 : isPushFor v (Ev.pushEv u) = false := by
          simp [isPushFor]
          exact fun hc => hv hc.symm
        simp [h1]
      have h2 : isPushPending v (⟨u, BState.fetched cur links⟩ : Branch) = false := by
        simp [isPushPending]
        exact fun hc => absurd hc.symm hv
      rw [h2] at hswap
      simp at hswap
      rw [hL, hR]
      omega
  · intro v
    show (s.trace ++ [Ev.pushEv u]).countP (isFetchFor v)
        + (s.branches.set i ⟨u, BState.sent cur links⟩).countP (isFetchPending v)
      ≤ (s.trace ++ [Ev.pushEv u]).countP (isAdmitTFor v)
    rw [countP_append_inert s.trace (isAdmitTFor v) (Ev.pushEv u) rfl,
      countP_append_inert s.trace (isFetchFor v) (Ev.pushEv u) rfl]
    have hswap := countP_set_swap (isFetchPending v) s.branches i
      ⟨u, BState.sent cur links⟩ ⟨u, BState.fetched cur links⟩ hb
    have hold : isFetchPending v (⟨u, BState.fetched cur links⟩ : Branch) = false := by
      simp [isFetchPending]
    have hnew : isFetchPending v (⟨u, BState.sent cur links⟩ : Branch) = false := by
      simp [isFetchPending]
    rw [hold, hnew] at hswap
    simp at hswap
    have hbd := h.fetch_bound v
    omega
  · exact h.count_eq
  · intro j v cur2 links2 hbj
    by_cases hji : j = i
    · subst hji
      rw [hset] at hbj
      have h2 := Option.some.inj hbj
      have hst : BState.sent cur links = BState.fetched cur2 links2 := congrArg Branch.st h2
      exact BState.noConfusion hst
    · rw [List.getElem?_set_ne (fun he => hji he.symm)] at hbj
      exact h.fetched_site j v cur2 links2 hbj
  · intro j v cur2 links2 hbj
    by_cases hji : j = i
    · subst hji
      rw [hset] at hbj
      have h2 := Option.some.inj hbj
      have hv : u = v := congrArg Branch.url h2
      subst hv
      exact List.mem_append_right _ (List.mem_singleton.mpr rfl)
    · rw [List.getElem?_set_ne (fun he => hji he.symm)] at hbj
      exact List.mem_append_left _ (h.sent_push j v cur2 links2 hbj)
  · intro v hv
    rcases List.mem_append.mp hv with hv | hv
    · exact h.push_site v hv
    · have h2 := List.mem_singleton.mp hv
      have hv2 : v = u := by injection h2
      subst hv2
      exact ⟨links, hsite⟩
  · intro j v cur2 hbj
    by_cases hji : j = i
    · subst hji
      rw [hset] at hbj
      have h2 := Option.some.inj hbj
      have hst : BState.sent cur links = BState.admitted cur2 := congrArg Branch.st h2
      exact BState.noConfusion hst
    · rw [List.getElem?_set_ne (fun he => hji he.symm)] at hbj
      obtain ⟨h1, h2⟩ := h.admitted_mem j v cur2 hbj
      exact ⟨List.mem_append_left _ h1, h2⟩
  · refine fetchOrder_append s.trace _ h.fetch_order ?_
    intro j i2 u2 hj
    exact Ev.noConfusion (singleton_getElem? _ _ j hj).2
  · intro i2 u2 hu
    rcases List.mem_append.mp hu with hu | hu
    · exact h.fetch_visited i2 u2 hu
    · exact Ev.noConfusion (List.mem_singleton.mp hu)
  · refine spawnOrder_append s.trace _ h.spawn_order ?_
    intro j p i2 c hj
    exact Ev.noConfusion (singleton_getElem? _ _ j hj).2
  · intro j b hbj hj0
    by_cases hji : j = i
    · subst hji
      rw [hset] at hbj
      have h2 := Option.some.inj hbj
      obtain ⟨p, hp⟩ := h.branch_spawned j ⟨u, BState.fetched cur links⟩ hb hj0
      refine ⟨p, List.mem_append_left _ ?_⟩
      rw [← h2]
      exact hp
    · rw [List.getElem?_set_ne (fun he => hji he.symm)] at hbj
      obtain ⟨p, hp⟩ := h.branch_spawned j b hbj hj0
      exact ⟨p, List.mem_append_left _ hp⟩
  · refine admitOrder_append s.trace _ h.admit_order ?_
    intro j i2 u2 hj
    rcases hj with hj | hj <;> exact Ev.noConfusion (singleton_getElem? _ _ j hj).2

/-- The worklist send step on a closed worklist: the send panics, the
program crashes; only the branch state, the crash flag and the trace
change. -/
theorem dinv_pushClosed (cfg : Cfg) (s : DState) (i : Nat) (u : String) (cur : Nat)
    (links : List String)
    (hb : s.branches[i]? = some ⟨u, BState.fetched cur links⟩)
    (h : DInv cfg s) :
    DInv cfg { s with crashed := true,
                      branches := s.branches.set i ⟨u, BState.halted⟩,
                      trace := s.trace ++ [Ev.pushClosed u] } := by
  have hlen : i < s.branches.length := (List.getElem?_eq_some.mp hb).1
  have hset : (s.branches.set i ⟨u, BState.halted⟩)[i]? = some ⟨u, BState.halted⟩ := by
    rw [List.getElem?_set]
    simp [hlen]
  refine ⟨?_, ?_, ?_, ?_, ?_, ?_, ?_, ?_, ?_, ?_, ?_, ?_, ?_⟩
  · intro v
    show (s.trace ++ [Ev.pushClosed u]).countP (isAdmitTFor v) = if v ∈ s.visited then 1 else 0
    rw [countP_append_inert s.trace (isAdmitTFor v) (Ev.pushClosed u) rfl]
    exact h.admit_count v
  · intro v
    show (s.trace ++ [Ev.pushClosed u]).countP (isPushFor v)
        + (s.branches.set i ⟨u, BState.halted⟩).countP (isPushPending v)
      ≤ (s.trace ++ [Ev.pushClosed u]).countP (isAdmitTFor v)
    rw [countP_append_inert s.trace (isAdmitTFor v) (Ev.pushClosed u) rfl,
      countP_append_inert s.trace (isPushFor v) (Ev.pushClosed u) rfl]
    have hswap := countP_set_swap (isPushPending v) s.branches i
      ⟨u, BState.halted⟩ ⟨u, BState.fetched cur links⟩ hb
    have hnew : isPushPending v (⟨u, BState.halted⟩ : Branch) = false := by
      simp [isPushPending]
    rw [hnew] at hswap
    simp at hswap
    have hbd := h.push_bound v
    have hle : (if isPushPending v (⟨u, BState.fetched cur links⟩ : Branch) then 1 else 0)
        ≤ 1 := by
      split <;> simp
    omega
  · intro v
    show (s.trace ++ [Ev.pushClosed u]).countP (isFetchFor v)
        + (s.branches.set i ⟨u, BState.halted⟩).countP (isFetchPending v)
      ≤ (s.trace ++ [Ev.pushClosed u]).countP (isAdmitTFor v)
    rw [countP_append_inert s.trace (isAdmitTFor v) (Ev.pushClosed u) rfl,
      countP_append_inert s.trace (isFetchFor v) (Ev.pushClosed u) rfl]
    have hswap := countP_set_swap (isFetchPending v) s.branches i
      ⟨u, BState.halted⟩ ⟨u, BState.fetched cur links⟩ hb
    have hold : isFetchPending v (⟨u, BState.fetched cur links⟩ : Branch) = false := by
      simp [isFetchPending]
    have hnew : isFetchPending v (⟨u, BState.halted⟩ : Branch) = false := by
      simp [isFetchPending]
    rw [hold, hnew] at hswap
    simp at hswap
    have hbd := h.fetch_bound v
    omega
  · exact h.count_eq
  · intro j v cur2 links2 hbj
    by_cases hji : j = i
    · subst hji
      rw [hset] at hbj
      simp at hbj
    · rw [List.getElem?_set_ne (fun he => hji he.symm)] at hbj
      exact h.fetched_site j v cur2 links2 hbj
  · intro j v cur2 links2 hbj
    by_cases hji : j = i
    · subst hji
      rw [hset] at hbj
      simp at hbj
    · rw [List.getElem?_set_ne (fun he => hji he.symm)] at hbj
      exact List.mem_append_left _ (h.sent_push j v cur2 links2 hbj)
  · intro v hv
    rcases List.mem_append.mp hv with hv | hv
    · exact h.push_site v hv
    · exact Ev.noConfusion (List.mem_singleton.mp hv)
  · intro j v cur2 hbj
    by_cases hji : j = i
    · subst hji
      rw [hset] at hbj
      simp at hbj
    · rw [List.getElem?_set_ne (fun he => hji he.symm)] at hbj
      obtain ⟨h1, h2⟩ := h.admitted_mem j v cur2 hbj
      exact ⟨List.mem_append_left _ h1, h2⟩
  · refine fetchOrder_append s.trace _ h.fetch_order ?_
    intro j i2 u2 hj
    exact Ev.noConfusion (singleton_getElem? _ _ j hj).2
  · intro i2 u2 hu
    rcases List.mem_append.mp hu with hu | hu
    · exact h.fetch_visited i2 u2 hu
    · exact Ev.noConfusion (List.mem_singleton.mp hu)
  · refine spawnOrder_append s.trace _ h.spawn_order ?_
    intro j p i2 c hj
    exact Ev.noConfusion (singleton_getElem? _ _ j hj).2
  · intro j b hbj hj0
    by_cases hji : j = i
    · subst hji
      rw [hset] at hbj
      have h2 := Option.some.inj hbj
      obtain ⟨p, hp⟩ := h.branch_spawned j ⟨u, BState.fetched cur links⟩ hb hj0
      refine ⟨p, List.mem_append_left _ ?_⟩
      rw [← h2]
      exact hp
    · rw [List.getElem?_set_ne (fun he => hji he.symm)] at hbj
      obtain ⟨p, hp⟩ := h.branch_spawned j b hbj hj0
      exact ⟨p, List.mem_append_left _ hp⟩
  · refine admitOrder_append s.trace _ h.admit_order ?_
    intro j i2 u2 hj
    rcases hj with hj | hj <;> exact Ev.noConfusion (singleton_getElem? _ _ j hj).2

/-- The spawn step when the captured counter has reached the cap: the
branch halts without spawning anything and without recording any
event. -/
theorem dinv_spawnCapped (cfg : Cfg) (s : DState) (i : Nat) (u : String) (cur : Nat)
    (links : List String)
    (hb : s.branches[i]? = some ⟨u, BState.sent cur links⟩)
    (h : DInv cfg s) :
    DInv cfg { s with branches := s.branches.set i ⟨u, BState.halted⟩ } := by
  have hlen : i < s.branches.length := (List.getElem?_eq_some.mp hb).1
  have hset : (s.branches.set i ⟨u, BState.halted⟩)[i]? = some ⟨u, BState.halted⟩ := by
    rw [List.getElem?_set]
    simp [hlen]
  have hpend : ∀ (q : Branch → Bool), q ⟨u, BState.sent cur links⟩ = false →
      q ⟨u, BState.halted⟩ = false →
      (s.branches.set i ⟨u, BState.halted⟩).countP q = s.branches.countP q := by
    intro q h1 h2
    have hswap := countP_set_swap q s.branches i ⟨u, BState.halted⟩
      ⟨u, BState.sent cur links⟩ hb
    rw [h1, h2] at hswap
    simpa using hswap
  refine ⟨?_, ?_, ?_, ?_, ?_, ?_, ?_, ?_, ?_, ?_, ?_, ?_, ?_⟩
  · exact h.admit_count
  · intro v
    show s.trace.countP (isPushFor v)
        + (s.branches.set i ⟨u, BState.halted⟩).countP (isPushPending v)
      ≤ s.trace.countP (isAdmitTFor v)
    rw [hpend _ (by simp [isPushPending]) (by simp [isPushPending])]
    exact h.push_bound v
  · intro v
    show s.trace.countP (isFetchFor v)
        + (s.branches.set i ⟨u, BState.halted⟩).countP (isFetchPending v)
      ≤ s.trace.countP (isAdmitTFor v)
    rw [hpend _ (by simp [isFetchPending]) (by simp [isFetchPending])]
    exact h.fetch_bound v
  · exact h.count_eq
  · intro j v cur2 links2 hbj
    by_cases hji : j = i
    · subst hji
      rw [hset] at hbj
      simp at hbj
    · rw [List.getElem?_set_ne (fun he => hji he.symm)] at hbj
      exact h.fetched_site j v cur2 links2 hbj
  · intro j v cur2 links2 hbj
    by_cases hji : j = i
    · subst hji
      rw [hset] at hbj
      simp at hbj
    · rw [List.getElem?_set_ne (fun he => hji he.symm)] at hbj
      exact h.sent_push j v cur2 links2 hbj
  · exact h.push_site
  · intro j v cur2 hbj
    by_cases hji : j = i
    · subst hji
      rw [hset] at hbj
      simp at hbj
    · rw [List.getElem?_set_ne (fun he => hji he.symm)] at hbj
      exact h.admitted_mem j v cur2 hbj
  · exact h.fetch_order
  · exact h.fetch_visited
  · exact h.spawn_order
  · intro j b hbj hj0
    by_cases hji : j = i
    · subst hji
      rw [hset] at hbj
      have h2 := Option.some.inj hbj
      obtain ⟨p, hp⟩ := h.branch_spawned j ⟨u, BState.sent cur links⟩ hb hj0
      refine ⟨p, ?_⟩
      rw [← h2]
      exact hp
    · rw [List.getElem?_set_ne (fun he => hji he.symm)] at hbj
      exact h.branch_spawned j b hbj hj0
  · exact h.admit_order

/-- The spawn step below the cap: the branch halts, one fresh ready
branch per extracted link is appended, and the spawn events are
recorded. -/
theorem dinv_spawn (cfg : Cfg) (s : DState) (i : Nat) (u : String) (cur : Nat)
    (links : List String)
    (hb : s.branches[i]? = some ⟨u, BState.sent cur links⟩)
    (h : DInv cfg s) :
    DInv cfg { s with
      branches := (s.branches.set i ⟨u, BState.halted⟩)
        ++ links.map (fun c => (⟨c, BState.ready⟩ : Branch)),
      trace := s.trace ++ spawnEvs u s.branches.length links } := by
  have hlen : i < s.branches.length := (List.getElem?_eq_some.mp hb).1
  have hset : (s.branches.set i ⟨u, BState.halted⟩)[i]? = some ⟨u, BState.halted⟩ := by
    rw [List.getElem?_set]
    simp [hlen]
  have hlenset : (s.branches.set i ⟨u, BState.halted⟩).length = s.branches.length :=
    List.length_set s.branches i _
  have hpush : Ev.pushEv u ∈ s.trace := h.sent_push i u cur links hb
  have htrace : ∀ (q : Ev → Bool), (∀ a b c, q (Ev.spawnEv a b c) = false) →
      (s.trace ++ spawnEvs u s.branches.length links).countP q = s.trace.countP q := by
    intro q hq
    rw [List.countP_append, countP_spawnEvs_zero q hq u links s.branches.length]
    omega
  have hpend : ∀ (q : Branch → Bool), q ⟨u, BState.sent cur links⟩ = false →
      q ⟨u, BState.halted⟩ = false → (∀ c, q ⟨c, BState.ready⟩ = false) →
      ((s.branches.set i ⟨u, BState.halted⟩)
        ++ links.map (fun c => (⟨c, BState.ready⟩ : Branch))).countP q = s.branches.countP q := by
    intro q h1 h2 h3
    rw [List.countP_append]
    have hz : (links.map (fun c => (⟨c, BState.ready⟩ : Branch))).countP q = 0 := by
      rw [List.countP_eq_zero]
      intro b hbm
      obtain ⟨c, _, hcb⟩ := List.mem_map.mp hbm
      rw [← hcb]
      simp [h3 c]
    have hswap := countP_set_swap q s.branches i ⟨u, BState.halted⟩
      ⟨u, BState.sent cur links⟩ hb
    rw [h1, h2] at hswap
    simp at hswap
    rw [hz, hswap]
    omega
  have hchild : ∀ (j : Nat) (b : Branch),
      ((s.branches.set i ⟨u, BState.halted⟩)
        ++ links.map (fun c => (⟨c, BState.ready⟩ : Branch)))[j]? = some b →
      ¬ j < s.branches.length →
      ∃ (k : Nat) (hk : k < links.length), j = s.branches.length + k
        ∧ b = ⟨links.get ⟨k, hk⟩, BState.ready⟩ := by
    intro j b hbj hj
    rw [List.getElem?_append_right (by omega)] at hbj
    rw [hlenset] at hbj
    rw [List.getElem?_map] at hbj
    cases hC : links[j - s.branches.length]? with
    | none => rw [hC] at hbj; exact Option.noConfusion hbj
    | some c =>
      rw [hC] at hbj
      obtain ⟨hk, hval⟩ := List.getElem?_eq_some.mp hC
      refine ⟨j - s.branches.length, hk, by omega, ?_⟩
      have hbc : b = ⟨c, BState.ready⟩ := (Option.some.inj hbj).symm
      rw [hbc, List.get_eq_getElem, hval]
  refine ⟨?_, ?_, ?_, ?_, ?_, ?_, ?_, ?_, ?_, ?_, ?_, ?_, ?_⟩
  · intro v
    show (s.trace ++ spawnEvs u s.branches.length links).countP (isAdmitTFor v)
      = if v ∈ s.visited then 1 else 0
    rw [htrace _ (fun a b c => rfl)]
    exact h.admit_count v
  · intro v
    show (s.trace ++ spawnEvs u s.branches.length links).countP (isPushFor v)
        + ((s.branches.set i ⟨u, BState.halted⟩)
            ++ links.map (fun c => (⟨c, BState.ready⟩ : Branch))).countP (isPushPending v)
      ≤ (s.trace ++ spawnEvs u s.branches.length links).countP (isAdmitTFor v)
    rw [htrace _ (fun a b c => rfl), htrace _ (fun a b c => rfl),
      hpend _ (by simp [isPushPending]) (by simp [isPushPending])
        (fun c => by simp [isPushPending])]
    exact h.push_bound v
  · intro v
    show (s.trace ++ spawnEvs u s.branches.length links).countP (isFetchFor v)
        + ((s.branches.set i ⟨u, BState.halted⟩)
            ++ links.map (fun c => (⟨c, BState.ready⟩ : Branch))).countP (isFetchPending v)
      ≤ (s.trace ++ spawnEvs u s.branches.length links).countP (isAdmitTFor v)
    rw [htrace _ (fun a b c => rfl), htrace _ (fun a b c => rfl),
      hpend _ (by simp [isFetchPending]) (by simp [isFetchPending])
        (fun c => by simp [isFetchPending])]
    exact h.fetch_bound v
  · exact h.count_eq
  · intro j v cur2 links2 hbj
    by_cases hj : j < s.branches.length
    · rw [List.getElem?_append_left (by omega)] at hbj
      by_cases hji : j = i
      · subst hji
        rw [hset] at hbj
        simp at hbj
      · rw [List.getElem?_set_ne (fun he => hji he.symm)] at hbj
        exact h.fetched_site j v cur2 links2 hbj
    · obtain ⟨k, hk, _, hbv⟩ := hchild j _ hbj hj
      simp at hbv
  · intro j v cur2 links2 hbj
    by_cases hj : j < s.branches.length
    · rw [List.getElem?_append_left (by omega)] at hbj
      by_cases hji : j = i
      · subst hji
        rw [hset] at hbj
        simp at hbj
      · rw [List.getElem?_set_ne (fun he => hji he.symm)] at hbj
        exact List.mem_append_left _ (h.sent_push j v cur2 links2 hbj)
    · obtain ⟨k, hk, _, hbv⟩ := hchild j _ hbj hj
      simp at hbv
  · intro v hv
    rcases List.mem_append.mp hv with hv | hv
    · exact h.push_site v hv
    · obtain ⟨k, c, he⟩ := mem_spawnEvs u links s.branches.length _ hv
      exact Ev.noConfusion he
  · intro j v cur2 hbj
    by_cases hj : j < s.branches.length
    · rw [List.getElem?_append_left (by omega)] at hbj
      by_cases hji : j = i
      · subst hji
        rw [hset] at hbj
        simp at hbj
      · rw [List.getElem?_set_ne (fun he => hji he.symm)] at hbj
        obtain ⟨h1, h2⟩ := h.admitted_mem j v cur2 hbj
        exact ⟨List.mem_append_left _ h1, h2⟩
    · obtain ⟨k, hk, _, hbv⟩ := hchild j _ hbj hj
      simp at hbv
  · refine fetchOrder_append s.trace _ h.fetch_order ?_
    intro j i2 u2 hj
    have hm := List.getElem?_mem hj
    obtain ⟨k, c, he⟩ := mem_spawnEvs u links s.branches.length _ hm
    exact Ev.noConfusion he
  · intro i2 u2 hu
    rcases List.mem_append.mp hu with hu | hu
    · exact h.fetch_visited i2 u2 hu
    · obtain ⟨k, c, he⟩ := mem_spawnEvs u links s.branches.length _ hu
      exact Ev.noConfusion he
  · refine spawnOrder_append s.trace _ h.spawn_order ?_
    intro j p i2 c hj
    have hm := List.getElem?_mem hj
    obtain ⟨k, c2, he⟩ := mem_spawnEvs u links s.branches.length _ hm
    have hp : p = u := by injection he
    subst hp
    exact hpush
  · intro j b hbj hj0
    by_cases hj : j < s.branches.length
    · rw [List.getElem?_append_left (by omega)] at hbj
      by_cases hji : j = i
      · subst hji
        rw [hset] at hbj
        have h2 := Option.some.inj hbj
        obtain ⟨p, hp⟩ := h.branch_spawned j ⟨u, BState.sent cur links⟩ hb hj0
        refine ⟨p, List.mem_append_left _ ?_⟩
        rw [← h2]
        exact hp
      · rw [List.getElem?_set_ne (fun he => hji he.symm)] at hbj
        obtain ⟨p, hp⟩ := h.branch_spawned j b hbj hj0
        exact ⟨p, List.mem_append_left _ hp⟩
    · obtain ⟨k, hk, hjk, hbv⟩ := hchild j _ hbj hj
      refine ⟨u, List.mem_append_right _ ?_⟩
      have hm := spawnEv_mem_spawnEvs u links s.branches.length k hk
      rw [hbv]
      show Ev.spawnEv u j (links.get ⟨k, hk⟩) ∈ spawnEvs u s.branches.length links
      rw [hjk]
      exact hm
  · refine admitOrder_append s.trace _ h.admit_order ?_
    intro j i2 u2 hj
    have hm : ∃ e, e ∈ spawnEvs u s.branches.length links
        ∧ (e = Ev.admitT i2 u2 ∨ e = Ev.admitF i2 u2) := by
      rcases hj with hj | hj
      · exact ⟨_, List.getElem?_mem hj, Or.inl rfl⟩
      · exact ⟨_, List.getElem?_mem hj, Or.inr rfl⟩
    obtain ⟨e, hme, hee⟩ := hm
    obtain ⟨k, c, he⟩ := mem_spawnEvs u links s.branches.length e hme
    rcases hee with hee | hee <;> rw [hee] at he <;> exact Ev.noConfusion he

/-- Every step of the discovery machine preserves the invariant. -/
theorem dinv_step (cfg : Cfg) (s : DState) (a : Actor) (h : DInv cfg s) :
    DInv cfg (discoverStep cfg s a) := by
  by_cases hcr : s.crashed = true
  · have hstep : discoverStep cfg s a = s := by
      unfold discoverStep
      rw [if_pos hcr]
    rw [hstep]
    exact h
  have hcr2 : s.crashed = false := by
    cases hcrv : s.crashed
    · rfl
    · exact absurd hcrv hcr
  cases a with
  | sig =>
    cases hb0 : s.branches[0]? with
    | none =>
      have hstep : discoverStep cfg s Actor.sig = s := by
        unfold discoverStep
        rw [hcr2]
        simp only [Bool.false_eq_true, if_false, hb0]
      rw [hstep]
      exact h
    | some b =>
      by_cases hcond : b.st = BState.halted ∧ s.doneSig = false
      · have hstep : discoverStep cfg s Actor.sig
            = { s with doneSig := true, trace := s.trace ++ [Ev.doneEv] } := by
          unfold discoverStep
          rw [hcr2]
          simp only [Bool.false_eq_true, if_false, hb0]
          rw [if_pos hcond]
        rw [hstep]
        exact dinv_inert cfg s Ev.doneEv s.closed true (Or.inl rfl) h
      · have hstep : discoverStep cfg s Actor.sig = s := by
          unfold discoverStep
          rw [hcr2]
          simp only [Bool.false_eq_true, if_false, hb0]
          rw [if_neg hcond]
        rw [hstep]
        exact h
  | orch =>
    by_cases hcond : s.doneSig = true ∧ s.closed = false
    · have hstep : discoverStep cfg s Actor.orch
          = { s with closed := true, trace := s.trace ++ [Ev.closeEv] } := by
        unfold discoverStep
        rw [hcr2]
        simp only [Bool.false_eq_true, if_false]
        rw [if_pos hcond]
      rw [hstep]
      exact dinv_inert cfg s Ev.closeEv true s.doneSig (Or.inr rfl) h
    · have hstep : discoverStep cfg s Actor.orch = s := by
        unfold discoverStep
        rw [hcr2]
        simp only [Bool.false_eq_true, if_false]
        rw [if_neg hcond]
      rw [hstep]
      exact h
  | br i =>
    cases hb : s.branches[i]? with
    | none =>
      have hstep : discoverStep cfg s (Actor.br i) = s := by
        unfold discoverStep
        rw [hcr2]
        simp only [Bool.false_eq_true, if_false, hb]
      rw [hstep]
      exact h
    | some b =>
      obtain ⟨u, st⟩ := b
      cases st with
      | ready =>
        cases hr : admitURL cfg.maxURLs u ⟨s.visited, s.count⟩ with
        | mk bb f2 =>
          cases bb with
          | true =>
            have hcond : ¬(u ∈ s.visited ∨ cfg.maxURLs ≤ s.count) := by
              intro hc
              unfold admitURL at hr
              rw [if_pos hc] at hr
              exact Bool.noConfusion (congrArg Prod.fst hr)
            have hf2 : f2 = ⟨u :: s.visited, s.count + 1⟩ := by
              unfold admitURL at hr
              rw [if_neg hcond] at hr
              exact (congrArg Prod.snd hr).symm
            have hstep : discoverStep cfg s (Actor.br i)
                = { s with branches := s.branches.set i ⟨u, BState.admitted f2.count⟩,
                           visited := f2.visited, count := f2.count,
                           trace := s.trace ++ [Ev.admitT i u] } := by
              unfold discoverStep
              rw [hcr2]
              simp only [Bool.false_eq_true, if_false, hb, hr, if_true]
            rw [hstep, hf2]
            exact dinv_admitT cfg s i u hb (fun hm => hcond (Or.inl hm)) h
          | false =>
            have hstep : discoverStep cfg s (Actor.br i)
                = { s with branches := s.branches.set i ⟨u, BState.halted⟩,
                           trace := s.trace ++ [Ev.admitF i u] } := by
              unfold discoverStep
              rw [hcr2]
              simp only [Bool.false_eq_true, if_false, hb, hr]
            rw [hstep]
            exact dinv_admitF cfg s i u hb h
      | admitted cur =>
        cases hsite : cfg.site u with
        | netErr =>
          have hstep : discoverStep cfg s (Actor.br i)
              = { s with branches := s.branches.set i ⟨u, BState.halted⟩,
                         trace := s.trace ++ [Ev.fetchEv i u] } := by
            unfold discoverStep
            rw [hcr2]
            simp only [Bool.false_eq_true, if_false, hb, hsite]
          rw [hstep]
          exact dinv_fetch cfg s i u cur BState.halted hb (Or.inr rfl) h
        | resp status links =>
          by_cases hstat : status = 200
          · subst hstat
            have hstep : discoverStep cfg s (Actor.br i)
                = { s with branches := s.branches.set i ⟨u, BState.fetched cur links⟩,
                           trace := s.trace ++ [Ev.fetchEv i u] } := by
              unfold discoverStep
              rw [hcr2]
              simp only [Bool.false_eq_true, if_false, hb, hsite, if_true]
            rw [hstep]
            exact dinv_fetch cfg s i u cur (BState.fetched cur links) hb
              (Or.inl ⟨links, rfl, hsite⟩) h
          · have hstep : discoverStep cfg s (Actor.br i)
                = { s with branches := s.branches.set i ⟨u, BState.halted⟩,
                           trace := s.trace ++ [Ev.fetchEv i u] } := by
              unfold discoverStep
              rw [hcr2]
              simp only [Bool.false_eq_true, if_false, hb, hsite]
              rw [if_neg hstat]
            rw [hstep]
            exact dinv_fetch cfg s i u cur BState.halted hb (Or.inr rfl) h
      | fetched cur links =>
        by_cases hcl : s.closed = true
        · have hstep : discoverStep cfg s (Actor.br i)
              = { s with crashed := true,
                         branches := s.branches.set i ⟨u, BState.halted⟩,
                         trace := s.trace ++ [Ev.pushClosed u] } := by
            unfold discoverStep
            rw [hcr2]
            simp only [Bool.false_eq_true, if_false, hb]
            rw [if_pos hcl]
          rw [hstep]
          exact dinv_pushClosed cfg s i u cur links hb h
        · have hstep : discoverStep cfg s (Actor.br i)
              = { s with queue := s.queue ++ [u],
                         branches := s.branches.set i ⟨u, BState.sent cur links⟩,
                         trace := s.trace ++ [Ev.pushEv u] } := by
            unfold discoverStep
            rw [hcr2]
            simp only [Bool.false_eq_true, if_false, hb]
            rw [if_neg hcl]
          rw [hstep]
          exact dinv_push cfg s i u cur links hb h
      | sent cur links =>
        by_cases hcur : cur < cfg.maxURLs
        · have hstep : discoverStep cfg s (Actor.br i)
              = { s with branches := (s.branches.set i ⟨u, BState.halted⟩)
                           ++ links.map (fun c => (⟨c, BState.ready⟩ : Branch)),
                         trace := s.trace ++ spawnEvs u s.branches.length links } := by
            unfold discoverStep
            rw [hcr2]
            simp only [Bool.false_eq_true, if_false, hb]
            rw [if_pos hcur]
          rw [hstep]
          exact dinv_spawn cfg s i u cur links hb h
        · have hstep : discoverStep cfg s (Actor.br i)
              = { s with branches := s.branches.set i ⟨u, BState.halted⟩ } := by
            unfold discoverStep
            rw [hcr2]
            simp only [Bool.false_eq_true, if_false, hb]
            rw [if_neg hcur]
          rw [hstep]
          exact dinv_spawnCapped cfg s i u cur links hb h
      | halted =>
        have hstep : discoverStep cfg s (Actor.br i) = s := by
          unfold discoverStep
          rw [hcr2]
          simp only [Bool.false_eq_true, if_false, hb]
        rw [hstep]
        exact h

/-- The invariant holds after any schedule from the initial state. -/
theorem dinv_run (cfg : Cfg) (sched : List Actor) : DInv cfg (runDiscover cfg sched) := by
  have hgen : ∀ (l : List Actor) (s : DState), DInv cfg s →
      DInv cfg (l.foldl (discoverStep cfg) s) := by
    intro l
    induction l with
    | nil => intro s hs; exact hs
    | cons a l2 ih =>
      intro s hs
      exact ih _ (dinv_step cfg s a hs)
  exact hgen sched (initState cfg) (dinv_init cfg)

/-! ## Claim theorems -/

/-- C1: the claim says the worklist is closed only once no further push
can ever be attempted, with the completion signal given by a
pending-branch count reaching zero rather than a fixed delay.  The
code signals done a fixed sleep after the seed call returns (main.go
lines 270-274) with no synchronization against the spawned branches,
so there is an execution - the child's fetch outlasting the sleep - in
which the worklist is closed first and the child branch then attempts
a send on the closed worklist, crashing the run.  This run evaluates
the machine on that execution. -/
theorem c1_fixed_delay_close_races_push :
    (runDiscover cfgChild schedChild).crashed = true ∧
    (runDiscover cfgChild schedChild).trace =
      [Ev.admitT 0 "s", Ev.fetchEv 0 "s", Ev.pushEv "s", Ev.spawnEv "s" 1 "c",
       Ev.doneEv, Ev.closeEv, Ev.admitT 1 "c", Ev.fetchEv 1 "c", Ev.pushClosed "c"] := by
  exact ⟨by decide, by decide⟩

/-- C4: over every site, cap and interleaving, a Work Item (a completed
worklist send) is produced at most once per URL; a send happens only
for a URL whose discovery fetch returned status 200; and every
admission attempt of a spawned branch comes strictly after that
branch's spawn, which comes strictly after the parent's completed send
- fetch before extraction before any child admission attempt. -/
theorem c4_work_item_production (cfg : Cfg) (sched : List Actor) :
    (∀ u, (runDiscover cfg sched).trace.countP (isPushFor u) ≤ 1) ∧
    (∀ u, Ev.pushEv u ∈ (runDiscover cfg sched).trace →
      ∃ ls, cfg.site u = FetchOutcome.resp 200 ls) ∧
    (∀ (j i : Nat) (c : String),
      ((runDiscover cfg sched).trace[j]? = some (Ev.admitT i c) ∨
       (runDiscover cfg sched).trace[j]? = some (Ev.admitF i c)) →
      i = 0 ∨ ∃ p k m, k < j
        ∧ (runDiscover cfg sched).trace[k]? = some (Ev.spawnEv p i c)
        ∧ m < j ∧ (runDiscover cfg sched).trace[m]? = some (Ev.pushEv p)) := by
  have hinv := dinv_run cfg sched
  refine ⟨?_, hinv.push_site, ?_⟩
  · intro u
    have h1 := hinv.push_bound u
    have h2 := hinv.admit_count u
    rw [h2] at h1
    by_cases hm : u ∈ (runDiscover cfg sched).visited
    · rw [if_pos hm] at h1
      omega
    · rw [if_neg hm] at h1
      omega
  · intro j i c hj
    exact hinv.admit_order j i c hj

/-- C10: over every site, cap and interleaving, a URL is fetched at
most once per run (a failed discovery fetch is never re-attempted),
every fetch comes strictly after the same branch's admission success,
every fetched URL stays in the visited set, and the admission counter
always equals the size of the visited set - so a URL whose fetch fails
still holds one of the cap's slots.  On the concrete two-slot site
whose first child fails to fetch, the run produces one Work Item,
strictly fewer than the cap, while the reachable page b, which responds
200, was never admitted. -/
theorem c10_failed_fetch_consumes_slot (cfg : Cfg) (sched : List Actor) :
    (∀ u, (runDiscover cfg sched).trace.countP (isFetchFor u) ≤ 1) ∧
    (∀ (j i : Nat) (u : String),
      (runDiscover cfg sched).trace[j]? = some (Ev.fetchEv i u) →
      ∃ k, k < j ∧ (runDiscover cfg sched).trace[k]? = some (Ev.admitT i u)) ∧
    (∀ (i : Nat) (u : String), Ev.fetchEv i u ∈ (runDiscover cfg sched).trace →
      u ∈ (runDiscover cfg sched).visited) ∧
    (runDiscover cfg sched).count = (runDiscover cfg sched).visited.length ∧
    ((runDiscover cfgSlotLoss schedSlotLoss).queue.length = 1 ∧
     cfgSlotLoss.maxURLs = 2 ∧
     "a" ∈ (runDiscover cfgSlotLoss schedSlotLoss).visited ∧
     "b" ∉ (runDiscover cfgSlotLoss schedSlotLoss).visited ∧
     cfgSlotLoss.site "b" = FetchOutcome.resp 200 []) := by
  have hinv := dinv_run cfg sched
  refine ⟨?_, hinv.fetch_order, hinv.fetch_visited, hinv.count_eq, by decide⟩
  intro u
  have h1 := hinv.fetch_bound u
  have h2 := hinv.admit_count u
  rw [h2] at h1
  by_cases hm : u ∈ (runDiscover cfg sched).visited
  · rw [if_pos hm] at h1
    omega
  · rw [if_neg hm] at h1
    omega

/-- C2: over any serialized sequence of concurrent admission attempts
of one crawl run (the mutex serializes them), at most one attempt on a
given URL returns true, and a URL once marked visited is never
un-marked by any later attempt. -/
theorem c2_at_most_one_admission (m : Nat) (u : String) (us : List String) :
    truesFor u (runAdmits m us frontier0).1 ≤ 1 ∧
    ∀ (f : Frontier) (v w : String), w ∈ f.visited → w ∈ (admitURL m v f).2.visited := by
  exact ⟨truesFor_le_one m u us frontier0,
    fun f v w hw => admitURL_visited_mono m v w f hw⟩

/-- C3: over any serialized sequence of concurrent admission attempts
of one crawl run, the number of attempts returning true never exceeds
the cap, because the duplicate check, the cap comparison and the
increment form one atomic section. -/
theorem c3_cap_respected (m : Nat) (us : List String) :
    truesTotal (runAdmits m us frontier0).1 ≤ m := by
  have h1 := runAdmits_count_eq m us frontier0
  have h2 := runAdmits_count_le m us frontier0 (Nat.zero_le m)
  have h0 : frontier0.count = 0 := rfl
  omega

/-- C5: the claim says the recorded total equals succeeded + failed,
the number of popped items.  Each popped item does increment exactly
one of successPages and failedPages, but completedPages - recorded as
TotalPages - is incremented only on the success path, so on a run whose
single popped item fails the recorded total is 0 while succeeded +
failed is 1. -/
theorem c5_total_pages_undercounts :
    (workerRun [ScrapeOutcome.fetchFailed] ⟨0, 0, 0⟩).succeeded
      + (workerRun [ScrapeOutcome.fetchFailed] ⟨0, 0, 0⟩).failed = 1 ∧
    (recordedCrawlStats (workerRun [ScrapeOutcome.fetchFailed] ⟨0, 0, 0⟩)).1 = 0 := by
  exact ⟨rfl, rfl⟩

/-- C7: when a worker's fetch, parse or persist step fails, failedPages
is incremented by one and successPages untouched, the error is returned
to the worker loop (which only logs it), the loop continues with the
remaining items unchanged, and every item of the loop still lands in
exactly one of the two counters. -/
theorem c7_worker_failure_isolated (o : ScrapeOutcome) (st : Stats)
    (rest : List ScrapeOutcome) (h : o ≠ ScrapeOutcome.ok) :
    (scrapeURLFromWorklist o st).1.failed = st.failed + 1 ∧
    (scrapeURLFromWorklist o st).1.succeeded = st.succeeded ∧
    (scrapeURLFromWorklist o st).2 = true ∧
    workerRun (o :: rest) st = workerRun rest (scrapeURLFromWorklist o st).1 ∧
    (workerRun (o :: rest) st).succeeded + (workerRun (o :: rest) st).failed
      = st.succeeded + st.failed + rest.length + 1 := by
  have hs := workerRun_succeeded_failed (o :: rest) st
  have hlen : (o :: rest).length = rest.length + 1 := rfl
  cases o with
  | ok => exact absurd rfl h
  | fetchFailed => exact ⟨rfl, rfl, rfl, rfl, by omega⟩
  | parseFailed => exact ⟨rfl, rfl, rfl, rfl, by omega⟩
  | dbFailed => exact ⟨rfl, rfl, rfl, rfl, by omega⟩

/-- Witness for C7 at a concrete failing item followed by one
succeeding item. -/
theorem c7_witness :
    (scrapeURLFromWorklist ScrapeOutcome.fetchFailed ⟨0, 0, 0⟩).1.failed
      = (⟨0, 0, 0⟩ : Stats).failed + 1 ∧
    (scrapeURLFromWorklist ScrapeOutcome.fetchFailed ⟨0, 0, 0⟩).1.succeeded
      = (⟨0, 0, 0⟩ : Stats).succeeded ∧
    (scrapeURLFromWorklist ScrapeOutcome.fetchFailed ⟨0, 0, 0⟩).2 = true ∧
    workerRun (ScrapeOutcome.fetchFailed :: [ScrapeOutcome.ok]) ⟨0, 0, 0⟩
      = workerRun [ScrapeOutcome.ok]
          (scrapeURLFromWorklist ScrapeOutcome.fetchFailed ⟨0, 0, 0⟩).1 ∧
    (workerRun (ScrapeOutcome.fetchFailed :: [ScrapeOutcome.ok]) ⟨0, 0, 0⟩).succeeded
      + (workerRun (ScrapeOutcome.fetchFailed :: [ScrapeOutcome.ok]) ⟨0, 0, 0⟩).failed
      = (⟨0, 0, 0⟩ : Stats).succeeded + (⟨0, 0, 0⟩ : Stats).failed
        + [ScrapeOutcome.ok].length + 1 :=
  c7_worker_failure_isolated ScrapeOutcome.fetchFailed ⟨0, 0, 0⟩
    [ScrapeOutcome.ok] (by decide)

/-- C6: a discovery-phase fetch error or non-success status halts only
that branch: the step replaces the branch by its halted state and
records the fetch, and nothing else - not the worklist queue, not the
statistics counters, not the visited set, not any other branch - is
touched; no child is spawned; and the halted branch never runs again
(no retry). -/
theorem c6_discovery_failure_local (cfg : Cfg) (s : DState) (i : Nat)
    (u : String) (cur : Nat)
    (hcr : s.crashed = false)
    (hb : s.branches[i]? = some ⟨u, BState.admitted cur⟩)
    (hf : ∀ ls, cfg.site u ≠ FetchOutcome.resp 200 ls) :
    discoverStep cfg s (Actor.br i) =
      { s with branches := s.branches.set i ⟨u, BState.halted⟩,
               trace := s.trace ++ [Ev.fetchEv i u] } ∧
    (discoverStep cfg s (Actor.br i)).queue = s.queue ∧
    (discoverStep cfg s (Actor.br i)).stats = s.stats ∧
    (discoverStep cfg s (Actor.br i)).visited = s.visited ∧
    (discoverStep cfg s (Actor.br i)).count = s.count ∧
    (discoverStep cfg s (Actor.br i)).branches.length = s.branches.length ∧
    (∀ j, j ≠ i → (discoverStep cfg s (Actor.br i)).branches[j]? = s.branches[j]?) ∧
    discoverStep cfg (discoverStep cfg s (Actor.br i)) (Actor.br i)
      = discoverStep cfg s (Actor.br i) := by
  have hlen : i < s.branches.length := by
    rcases List.getElem?_eq_some.mp hb with ⟨hlt, _⟩
    exact hlt
  have h1 : discoverStep cfg s (Actor.br i) =
      { s with branches := s.branches.set i ⟨u, BState.halted⟩,
               trace := s.trace ++ [Ev.fetchEv i u] } := by
    unfold discoverStep
    rw [hcr]
    simp only [Bool.false_eq_true, if_false, hb]
    cases hsite : cfg.site u with
    | netErr => rfl
    | resp status links =>
      have hs200 : status ≠ 200 := by
        intro h200
        exact hf links (by rw [hsite, h200])
      simp only [hs200, if_false]
  refine ⟨h1, ?_, ?_, ?_, ?_, ?_, ?_, ?_⟩
  · rw [h1]
  · rw [h1]
  · rw [h1]
  · rw [h1]
  · rw [h1]; exact List.length_set s.branches i _
  · intro j hj
    rw [h1]
    exact List.getElem?_set_ne (fun hij => hj hij.symm)
  · rw [h1]
    have hb2 : (s.branches.set i ⟨u, BState.halted⟩)[i]?
        = some ⟨u, BState.halted⟩ := by
      rw [List.getElem?_set]
      simp [hlen]
    unfold discoverStep
    simp only [hcr, Bool.false_eq_true, if_false, hb2]

/-- Witness for C6: the failing fetch leaves queue and statistics of
the concrete state untouched. -/
theorem c6_witness :
    (discoverStep cfgC6 sC6 (Actor.br 0)).queue = sC6.queue ∧
    (discoverStep cfgC6 sC6 (Actor.br 0)).stats = sC6.stats := by
  have h := c6_discovery_failure_local cfgC6 sC6 0 "u" 1 rfl rfl
    (fun ls hresp => FetchOutcome.noConfusion hresp)
  exact ⟨h.2.1, h.2.2.1⟩

/-- C8 counterexample: the claim quantifies over every base URL string,
but url.Parse's error is discarded at line 279, so for a base URL the
library rejects (here one with a space in the host) and a body with one
anchor href, base.Parse is called on a nil receiver and the extractor
panics instead of returning a list. -/
theorem c8_unparsable_base_crashes :
    extractLinks spacedHostLib [Token.startTag "a" [("href", "x")]] "http://bad host/"
      = ExtractResult.nilDeref := rfl

/-- C8 (amended): for every body and every base URL that url.Parse
accepts, extractLinks returns a possibly-empty list and never fails its
caller; tokenizer exhaustion and per-href resolution errors degrade to
skipping.  (Within this program the base is always a URL whose fetch
succeeded, hence parseable.) -/
theorem c8_total_on_parseable_base (lib : URLLib) (body : List Token)
    (baseURL b : String) (h : lib.parse baseURL = some b) :
    ∃ ls, extractLinks lib body baseURL = ExtractResult.links ls := by
  unfold extractLinks
  rw [h]
  exact tokenFold_links lib b body []

/-- Witness for C8 (amended) at a parseable base and the same anchor
body as the counterexample. -/
theorem c8_witness :
    ∃ ls, extractLinks spacedHostLib [Token.startTag "a" [("href", "x")]] "http://ok/"
      = ExtractResult.links ls :=
  c8_total_on_parseable_base spacedHostLib [Token.startTag "a" [("href", "x")]]
    "http://ok/" "http://ok/" (by decide)

/-- C9 counterexample: with a working database and a worker count of
zero, main's start-up sequence proceeds to running (zero workers
started, discovery about to begin) instead of rejecting the
configuration. -/
theorem c9_zero_workers_not_rejected :
    mainSetup true 0 = SetupResult.running [] := rfl

/-- C9 (amended): the entry point performs no worker-count validation
at all - the worker count is the constant 5, the spawn loop starts
exactly the given number of workers for any count including zero, and
the only failure surfaced before discovery is database
initialization. -/
theorem c9_no_worker_count_validation :
    numWorkers = 5 ∧
    ∀ (dbOk : Bool) (n : Nat),
      mainSetup dbOk n = if dbOk = true then SetupResult.running (List.range n)
        else SetupResult.fatal "failed to connect database" := by
  refine ⟨rfl, ?_⟩
  intro dbOk n
  cases dbOk <;> rfl

end Crawler
